import Mathlib

/-! # Verification of the digit-demo feature-extraction and scoring pipeline

Shallow embedding of the numeric core of the multimodal digit-recognition
web app: softmax scoring (src/pages/VoicePage.tsx, src/pages/HandwritingPage.tsx),
confusion-matrix accumulation (src/pages/EvalPage.tsx), linear resampling
(src/lib/audio.ts), MNIST canvas preprocessing (src/lib/preprocessMnist.ts),
and the mel-spectrogram front end with its radix-2 in-place FFT
(src/lib/melSpectrogram.ts).

Floating-point arithmetic is modelled exactly: over the rationals where the
source only adds, multiplies, divides and compares concrete values, and over
the reals where the source uses transcendental functions (exp, cos, sin,
log10, powers of 10).  JS typed arrays become Lean lists or index functions;
in-place mutation becomes explicit state passing through folds. -/

open Finset

namespace DigitDemo

/-! ## Softmax (src/pages/VoicePage.tsx lines 59-64, HandwritingPage.tsx lines 8-13)

Source:
  const max = Math.max(...Array.from(logits));
  const exps = Array.from(logits, (v) => Math.exp(v - max));
  const sum = exps.reduce((a, b) => a + b, 0);
  return exps.map((e) => e / (sum || 1));

The vector is non-empty (length n+1); the app calls it at length 10. -/

noncomputable def maxLogit (n : ℕ) (l : Fin (n + 1) → ℝ) : ℝ :=
  Finset.univ.sup' Finset.univ_nonempty l

noncomputable def expSum (n : ℕ) (l : Fin (n + 1) → ℝ) : ℝ :=
  ∑ i, Real.exp (l i - maxLogit n l)

/-- The JS fallback (sum || 1): a denominator of 0 is replaced by 1. -/
noncomputable def softmaxDenom (n : ℕ) (l : Fin (n + 1) → ℝ) : ℝ :=
  if expSum n l = 0 then 1 else expSum n l

noncomputable def softmax (n : ℕ) (l : Fin (n + 1) → ℝ) : Fin (n + 1) → ℝ :=
  fun i => Real.exp (l i - maxLogit n l) / softmaxDenom n l

lemma le_maxLogit (n : ℕ) (l : Fin (n + 1) → ℝ) (i : Fin (n + 1)) :
    l i ≤ maxLogit n l :=
  Finset.le_sup' l (Finset.mem_univ i)

lemma exists_eq_maxLogit (n : ℕ) (l : Fin (n + 1) → ℝ) :
    ∃ i, maxLogit n l = l i := by
  obtain ⟨i, -, hi⟩ := Finset.exists_mem_eq_sup' (Finset.univ_nonempty) l
  exact ⟨i, hi⟩

lemma one_le_expSum (n : ℕ) (l : Fin (n + 1) → ℝ) : 1 ≤ expSum n l := by
  obtain ⟨i0, hi0⟩ := exists_eq_maxLogit n l
  have h1 : Real.exp (l i0 - maxLogit n l) = 1 := by
    rw [hi0, sub_self, Real.exp_zero]
  calc (1 : ℝ) = Real.exp (l i0 - maxLogit n l) := h1.symm
    _ ≤ expSum n l := by
        unfold expSum
        exact Finset.single_le_sum (f := fun i => Real.exp (l i - maxLogit n l))
          (fun i _ => (Real.exp_pos _).le) (Finset.mem_univ i0)

lemma expSum_pos (n : ℕ) (l : Fin (n + 1) → ℝ) : 0 < expSum n l :=
  lt_of_lt_of_le one_pos (one_le_expSum n l)

lemma softmaxDenom_eq_expSum (n : ℕ) (l : Fin (n + 1) → ℝ) :
    softmaxDenom n l = expSum n l := by
  unfold softmaxDenom
  rw [if_neg (ne_of_gt (expSum_pos n l))]

lemma maxLogit_add_const (n : ℕ) (l : Fin (n + 1) → ℝ) (c : ℝ) :
    maxLogit n (fun i => l i + c) = maxLogit n l + c := by
  apply le_antisymm
  · apply Finset.sup'_le
    intro i _
    exact add_le_add_right (le_maxLogit n l i) c
  · obtain ⟨i0, hi0⟩ := exists_eq_maxLogit n l
    rw [hi0]
    exact Finset.le_sup' (f := fun i => l i + c) (Finset.mem_univ i0)

lemma softmax_shift (n : ℕ) (l : Fin (n + 1) → ℝ) (c : ℝ) :
    softmax n (fun i => l i + c) = softmax n l := by
  have harg : ∀ i, (l i + c) - maxLogit n (fun j => l j + c) = l i - maxLogit n l := by
    intro i
    rw [maxLogit_add_const]
    ring
  have hsum : expSum n (fun i => l i + c) = expSum n l := by
    unfold expSum
    exact Finset.sum_congr rfl (fun i _ => by rw [harg])
  funext i
  unfold softmax softmaxDenom
  rw [harg, hsum]

lemma softmax_sum_eq_one (n : ℕ) (l : Fin (n + 1) → ℝ) :
    ∑ i, softmax n l i = 1 := by
  unfold softmax
  rw [← Finset.sum_div, softmaxDenom_eq_expSum]
  exact div_self (ne_of_gt (expSum_pos n l))

/-! ## Confusion-matrix accumulation (src/pages/EvalPage.tsx lines 92-132)

Source (inside runEval, with the model's argmax prediction treated as an
opaque input since inference is external):
  let localCorrect = 0;
  const localConf = Array.from(\x7b length: 10 \x7d, () => Array(10).fill(0));
  for (let i = 0; i < dataset.samples.length; i++) \x7b
    ...
    localConf[y][pred] = (localConf[y][pred] ?? 0) + 1;
    if (pred === y) localCorrect++;
    if ((i + 1) % 10 === 0 || i + 1 === dataset.samples.length) \x7b
      setConf(localConf...); setCorrect(localCorrect); setDone(i + 1);
    \x7d
  \x7d
  const accuracy = total ? (correct / total) * 100 : 0;

Each dataset sample is modelled as a pair (true label, predicted label). -/

structure EvalState where
  localConf : Fin 10 → Fin 10 → ℕ
  localCorrect : ℕ
  conf : Fin 10 → Fin 10 → ℕ
  correct : ℕ
  done : ℕ

def zeroConf : Fin 10 → Fin 10 → ℕ := fun _ _ => 0

/-- localConf[y][pred] = (localConf[y][pred] ?? 0) + 1 -/
def bump (c : Fin 10 → Fin 10 → ℕ) (y p : Fin 10) : Fin 10 → Fin 10 → ℕ :=
  fun a b => if a = y ∧ b = p then c a b + 1 else c a b

def accumStep (total i : ℕ) (s : EvalState) (sample : Fin 10 × Fin 10) : EvalState :=
  let y := sample.1
  let pred := sample.2
  let lc := bump s.localConf y pred
  let lcor := if pred = y then s.localCorrect + 1 else s.localCorrect
  if (i + 1) % 10 = 0 ∨ i + 1 = total then
    { localConf := lc, localCorrect := lcor, conf := lc, correct := lcor, done := i + 1 }
  else
    { localConf := lc, localCorrect := lcor, conf := s.conf, correct := s.correct,
      done := s.done }

def evalLoop (total : ℕ) : ℕ → List (Fin 10 × Fin 10) → EvalState → EvalState
  | _, [], s => s
  | i, p :: rest, s => evalLoop total (i + 1) rest (accumStep total i s p)

def initEvalState : EvalState :=
  { localConf := zeroConf, localCorrect := 0, conf := zeroConf, correct := 0, done := 0 }

/-- The evaluation run after the first n samples have been processed. -/
def runEvalUpTo (samples : List (Fin 10 × Fin 10)) (n : ℕ) : EvalState :=
  evalLoop samples.length 0 (samples.take n) initEvalState

def cellSum (c : Fin 10 → Fin 10 → ℕ) : ℕ := ∑ a, ∑ b, c a b

def diagSum (c : Fin 10 → Fin 10 → ℕ) : ℕ := ∑ a, c a a

/-- const accuracy = total ? (correct / total) * 100 : 0; -/
def reportedAccuracy (correct total : ℕ) : ℚ :=
  if total = 0 then 0 else ((correct : ℚ) / (total : ℚ)) * 100

lemma cellSum_bump (c : Fin 10 → Fin 10 → ℕ) (y p : Fin 10) :
    cellSum (bump c y p) = cellSum c + 1 := by
  unfold cellSum bump
  have h : ∀ a b : Fin 10,
      (if a = y ∧ b = p then c a b + 1 else c a b)
        = c a b + (if a = y then (if b = p then 1 else 0) else 0) := by
    intro a b
    by_cases ha : a = y <;> by_cases hb : b = p <;> simp [ha, hb]
  have hinner : ∀ a : Fin 10,
      (∑ b, (if a = y then (if b = p then 1 else 0) else 0)) = if a = y then 1 else 0 := by
    intro a
    by_cases ha : a = y <;> simp [ha, Finset.sum_ite_eq' Finset.univ]
  calc (∑ a, ∑ b, (if a = y ∧ b = p then c a b + 1 else c a b))
      = ∑ a, ((∑ b, c a b) + ∑ b, (if a = y then (if b = p then 1 else 0) else 0)) := by
        apply Finset.sum_congr rfl
        intro a _
        rw [← Finset.sum_add_distrib]
        exact Finset.sum_congr rfl (fun b _ => h a b)
    _ = (∑ a, ∑ b, c a b) + ∑ a, (if a = y then 1 else 0) := by
        rw [← Finset.sum_add_distrib]
        exact Finset.sum_congr rfl (fun a _ => by rw [hinner])
    _ = (∑ a, ∑ b, c a b) + 1 := by
        rw [Finset.sum_ite_eq' Finset.univ]
        simp

lemma diagSum_bump (c : Fin 10 → Fin 10 → ℕ) (y p : Fin 10) :
    diagSum (bump c y p) = diagSum c + (if p = y then 1 else 0) := by
  unfold diagSum bump
  by_cases hpy : p = y
  · subst hpy
    have h : ∀ a : Fin 10,
        (if a = p ∧ a = p then c a a + 1 else c a a)
          = c a a + (if a = p then 1 else 0) := by
      intro a
      by_cases ha : a = p <;> simp [ha]
    calc (∑ a, (if a = p ∧ a = p then c a a + 1 else c a a))
        = ∑ a, (c a a + (if a = p then 1 else 0)) :=
          Finset.sum_congr rfl (fun a _ => h a)
      _ = (∑ a, c a a) + ∑ a, (if a = p then 1 else 0) := Finset.sum_add_distrib
      _ = (∑ a, c a a) + (if p = p then 1 else 0) := by
          rw [Finset.sum_ite_eq' Finset.univ]
          simp

  · have h : ∀ a : Fin 10,
        (if a = y ∧ a = p then c a a + 1 else c a a) = c a a := by
      intro a
      have : ¬(a = y ∧ a = p) := by
        rintro ⟨h1, h2⟩
        exact hpy (h2.symm.trans h1)
      simp [this]
    simp [h, hpy]

lemma evalLoop_localConf_sums (total : ℕ) (l : List (Fin 10 × Fin 10)) :
    ∀ (i : ℕ) (s : EvalState),
      cellSum (evalLoop total i l s).localConf = cellSum s.localConf + l.length ∧
      diagSum (evalLoop total i l s).localConf
        = diagSum s.localConf + (l.filter (fun q => q.2 = q.1)).length := by
  induction l with
  | nil => intro i s; simp [evalLoop]
  | cons p rest ih =>
      intro i s
      have hstep : (accumStep total i s p).localConf = bump s.localConf p.1 p.2 := by
        unfold accumStep
        split <;> rfl
      obtain ⟨h1, h2⟩ := ih (i + 1) (accumStep total i s p)
      constructor
      · rw [evalLoop, h1, hstep, cellSum_bump]
        simp [List.length_cons]
        ring
      · rw [evalLoop, h2, hstep, diagSum_bump]
        by_cases hc : p.2 = p.1
        · simp [List.filter_cons, hc]
          ring
        · simp [List.filter_cons, hc]

lemma evalLoop_correct_diag (total : ℕ) (l : List (Fin 10 × Fin 10)) :
    ∀ (i : ℕ) (s : EvalState),
      s.localCorrect = diagSum s.localConf →
      s.correct = diagSum s.conf →
      (evalLoop total i l s).localCorrect = diagSum (evalLoop total i l s).localConf ∧
      (evalLoop total i l s).correct = diagSum (evalLoop total i l s).conf := by
  induction l with
  | nil => intro i s h1 h2; simp [evalLoop]; exact ⟨h1, h2⟩
  | cons p rest ih =>
      intro i s h1 h2
      apply ih (i + 1)
      · unfold accumStep
        split <;> simp only [] <;> rw [diagSum_bump, h1] <;> by_cases hc : p.2 = p.1 <;>
          simp [hc]
      · unfold accumStep
        split
        · simp only []
          rw [diagSum_bump, h1]
          by_cases hc : p.2 = p.1 <;> simp [hc]
        · simpa using h2

/-! ## Linear resampling (src/lib/audio.ts lines 74-88)

Source:
  if (inputRate === outputRate) return input;
  const ratio = outputRate / inputRate;
  const outputLength = Math.max(1, Math.round(input.length * ratio));
  for (let i = 0; i < outputLength; i++) \x7b
    const pos = i / ratio;
    const idx = Math.floor(pos);
    const frac = pos - idx;
    const a = input[idx] ?? 0;
    const b = input[idx + 1] ?? a;
    output[i] = a + (b - a) * frac;
  \x7d -/

/-- JS Math.round: round half toward positive infinity. -/
def jsRound (x : ℚ) : ℤ := ⌊x + 1 / 2⌋

def resampleLinear (input : List ℚ) (inputRate outputRate : ℚ) : List ℚ :=
  if inputRate = outputRate then input
  else
    let ratio := outputRate / inputRate
    let outputLength := (max 1 (jsRound ((input.length : ℚ) * ratio))).toNat
    (List.range outputLength).map fun (i : ℕ) =>
      let pos := (i : ℚ) / ratio
      let idx := ⌊pos⌋
      let frac := pos - (idx : ℚ)
      let a := (if 0 ≤ idx then input.get? idx.toNat else none).getD 0
      let b := (if 0 ≤ idx + 1 then input.get? (idx + 1).toNat else none).getD a
      a + (b - a) * frac

/-! ## MNIST canvas preprocessing (src/lib/preprocessMnist.ts lines 14-56)

The source canvas's ImageData is modelled as a byte grid (the red channel of
pixel (x,y) lives at data index 4*(y*width+x)); the browser's drawImage
rescaling is an opaque external rendering step, modelled by the render
oracle that supplies the final 28x28 preview bytes in the inked branch.
getContext on a freshly created canvas is modelled as always succeeding
(a functioning browser); the source canvas context is an Option, as the
claim conditions on its readability. -/

def MNIST_MEAN : ℚ := 1307 / 10000

def MNIST_STD : ℚ := 3081 / 10000

structure ImageGrid where
  width : ℕ
  height : ℕ
  data : ℕ → ℕ

structure BBox where
  minX : ℤ
  minY : ℤ
  maxX : ℤ
  maxY : ℤ

/-- const r = data[i] / 255; const ink = 1 - r; -/
def inkAt (g : ImageGrid) (x y : ℕ) : ℚ :=
  1 - (g.data ((y * g.width + x) * 4) : ℚ) / 255

def inkThreshold : ℚ := 12 / 100

def bboxScanPixel (g : ImageGrid) (y : ℕ) (st : BBox) (x : ℕ) : BBox :=
  if inkThreshold < inkAt g x y then
    { minX := if (x : ℤ) < st.minX then x else st.minX
      minY := if (y : ℤ) < st.minY then y else st.minY
      maxX := if st.maxX < (x : ℤ) then x else st.maxX
      maxY := if st.maxY < (y : ℤ) then y else st.maxY }
  else st

def bboxScan (g : ImageGrid) : BBox :=
  (List.range g.height).foldl
    (fun st y => (List.range g.width).foldl (bboxScanPixel g y) st)
    { minX := g.width, minY := g.height, maxX := -1, maxY := -1 }

structure PreprocessResult where
  tensorData : List ℚ
  hasInk : Bool
  deriving DecidableEq

/-- clamp(v, min, max) = Math.max(min, Math.min(max, v)) -/
def jsClamp (v lo hi : ℤ) : ℤ := max lo (min hi v)

def preprocessMnistFromCanvas (srcCtx : Option ImageGrid) (render : ℕ → ℕ) :
    Except String PreprocessResult :=
  match srcCtx with
  | none => Except.error "Could not read canvas"
  | some g =>
    let bb := bboxScan g
    if bb.maxX < 0 ∨ bb.maxY < 0 then
      Except.ok { tensorData := List.replicate (28 * 28) 0, hasInk := false }
    else
      let boxW := bb.maxX - bb.minX + 1
      let boxH := bb.maxY - bb.minY + 1
      let boxSize := max boxW boxH
      let margin := jsRound ((boxSize : ℚ) * (2 / 10))
      let cropX := jsClamp (bb.minX - margin) 0 ((g.width : ℤ) - 1)
      let cropY := jsClamp (bb.minY - margin) 0 ((g.height : ℤ) - 1)
      let cropMaxX := jsClamp (bb.maxX + margin) 0 ((g.width : ℤ) - 1)
      let cropMaxY := jsClamp (bb.maxY + margin) 0 ((g.height : ℤ) - 1)
      let cropW := cropMaxX - cropX + 1
      let cropH := cropMaxY - cropY + 1
      let scaledW := max 1 (jsRound ((cropW : ℚ) * (20 / max cropW cropH : ℚ)))
      let scaledH := max 1 (jsRound ((cropH : ℚ) * (20 / max cropW cropH : ℚ)))
      let _ := scaledW
      let _ := scaledH
      Except.ok
        { tensorData :=
            (List.range (28 * 28)).map fun i =>
              ((1 - (render (4 * i) : ℚ) / 255) - MNIST_MEAN) / MNIST_STD
          hasInk := true }

lemma foldl_fixed_of {α : Type _} {β : Type _} (f : α → β → α) (s : α) (l : List β)
    (h : ∀ b ∈ l, f s b = s) : l.foldl f s = s := by
  induction l with
  | nil => rfl
  | cons b rest ih =>
      rw [List.foldl_cons, h b (List.mem_cons_self b rest)]
      exact ih (fun b' hb' => h b' (List.mem_cons_of_mem b hb'))

lemma bboxScan_blank (g : ImageGrid)
    (hblank : ∀ y < g.height, ∀ x < g.width, inkAt g x y ≤ inkThreshold) :
    bboxScan g = { minX := g.width, minY := g.height, maxX := -1, maxY := -1 } := by
  unfold bboxScan
  apply foldl_fixed_of
  intro y hy
  apply foldl_fixed_of
  intro x hx
  unfold bboxScanPixel
  rw [if_neg]
  exact not_lt_of_le (hblank y (List.mem_range.mp hy) x (List.mem_range.mp hx))

/-! ## Claim theorems for the scoring utilities, resampling and preprocessing -/

/-- C2: For every length-10 vector of finite logits, the softmax output sums to
1 (exactly, in the real-number model of float arithmetic), and adding one and
the same constant to every logit leaves the output vector unchanged. -/
theorem softmax_sum_one_and_shift_invariant (l : Fin 10 → ℝ) :
    (∑ i, softmax 9 l i = 1) ∧ ∀ c : ℝ, softmax 9 (fun i => l i + c) = softmax 9 l :=
  ⟨softmax_sum_eq_one 9 l, fun c => softmax_shift 9 l c⟩

/-- C10: For every non-empty logit vector, the softmax denominator is at least 1
(the maximum-shifted entry contributes exp 0 = 1), so the (sum || 1) fallback is
unreachable (the denominator actually used equals the exponential sum), and
every returned probability lies in [0, 1]; in this real-number model the
division is by a provably nonzero value, which is the meaning of "no NaN". -/
theorem softmax_denominator_safe (n : ℕ) (l : Fin (n + 1) → ℝ) :
    1 ≤ expSum n l ∧ softmaxDenom n l = expSum n l ∧
      ∀ i, 0 ≤ softmax n l i ∧ softmax n l i ≤ 1 := by
  refine ⟨one_le_expSum n l, softmaxDenom_eq_expSum n l, fun i => ⟨?_, ?_⟩⟩
  · unfold softmax
    apply div_nonneg (Real.exp_pos _).le
    rw [softmaxDenom_eq_expSum]
    exact (expSum_pos n l).le
  · unfold softmax
    rw [softmaxDenom_eq_expSum]
    rw [div_le_one (expSum_pos n l)]
    unfold expSum
    exact Finset.single_le_sum (f := fun j => Real.exp (l j - maxLogit n l))
      (fun j _ => (Real.exp_pos _).le) (Finset.mem_univ i)

/-- C4: Starting from the all-zero 10x10 confusion matrix, after processing the
first n samples of an evaluation run the sum of all matrix cells equals the
number of samples processed, and the diagonal sum equals the number of those
samples whose predicted label equals the true label. -/
theorem confusionMatrix_sums (samples : List (Fin 10 × Fin 10)) (n : ℕ) :
    cellSum (runEvalUpTo samples n).localConf = (samples.take n).length ∧
    diagSum (runEvalUpTo samples n).localConf
      = ((samples.take n).filter (fun q => q.2 = q.1)).length := by
  unfold runEvalUpTo
  obtain ⟨h1, h2⟩ := evalLoop_localConf_sums samples.length (samples.take n) 0 initEvalState
  refine ⟨?_, ?_⟩
  · rw [h1]
    simp [initEvalState, cellSum, zeroConf]
  · rw [h2]
    simp [initEvalState, diagSum, zeroConf]

/-- C5 counterexample: run the evaluation on 20 samples that are all predicted
correctly.  After 10 samples the UI update fires: the confusion-matrix diagonal
is 10 and 10 samples have been processed, so the claimed running accuracy is
100%, but the page reports (10/20)*100 = 50% because the code divides by the
total dataset size instead of the number of samples processed. -/
theorem accuracy_midrun_counterexample :
    reportedAccuracy
        (runEvalUpTo (List.replicate 20 ((0 : Fin 10), (0 : Fin 10))) 10).correct
        (List.replicate 20 ((0 : Fin 10), (0 : Fin 10))).length = 50 ∧
    ((diagSum (runEvalUpTo (List.replicate 20 ((0 : Fin 10), (0 : Fin 10))) 10).conf : ℚ)
        / ((runEvalUpTo (List.replicate 20 ((0 : Fin 10), (0 : Fin 10))) 10).done : ℚ))
        * 100 = 100 ∧
    reportedAccuracy
        (runEvalUpTo (List.replicate 20 ((0 : Fin 10), (0 : Fin 10))) 10).correct
        (List.replicate 20 ((0 : Fin 10), (0 : Fin 10))).length
      ≠ ((diagSum (runEvalUpTo (List.replicate 20 ((0 : Fin 10), (0 : Fin 10))) 10).conf : ℚ)
          / ((runEvalUpTo (List.replicate 20 ((0 : Fin 10), (0 : Fin 10))) 10).done : ℚ))
          * 100 := by
  have hc : (runEvalUpTo (List.replicate 20 ((0 : Fin 10), (0 : Fin 10))) 10).correct = 10 := by
    decide
  have hd : diagSum (runEvalUpTo (List.replicate 20 ((0 : Fin 10), (0 : Fin 10))) 10).conf
      = 10 := by
    decide
  have hn : (runEvalUpTo (List.replicate 20 ((0 : Fin 10), (0 : Fin 10))) 10).done = 10 := by
    decide
  have hl : (List.replicate 20 ((0 : Fin 10), (0 : Fin 10))).length = 20 := by decide
  rw [hc, hd, hn, hl]
  unfold reportedAccuracy
  norm_num

/-- C5 amended: at every point of an evaluation run the reported accuracy is
the last-reported correct count (which always equals the diagonal sum of the
reported confusion matrix) divided by the TOTAL DATASET SIZE, times 100 -- not
by the number of samples processed so far; the two denominators agree only once
the whole dataset has been processed. -/
theorem accuracy_uses_dataset_size (samples : List (Fin 10 × Fin 10)) (n : ℕ) :
    (runEvalUpTo samples n).correct = diagSum (runEvalUpTo samples n).conf ∧
    reportedAccuracy (runEvalUpTo samples n).correct samples.length =
      if samples.length = 0 then 0
      else ((diagSum (runEvalUpTo samples n).conf : ℚ) / (samples.length : ℚ)) * 100 := by
  have h := evalLoop_correct_diag samples.length (samples.take n) 0 initEvalState
    (by simp [initEvalState, diagSum, zeroConf])
    (by simp [initEvalState, diagSum, zeroConf])
  unfold runEvalUpTo
  refine ⟨h.2, ?_⟩
  unfold reportedAccuracy
  rw [h.2]

/-- C8 counterexample: for the empty input with equal source and target rates
the code returns the input buffer itself, of length 0, whereas the claimed
formula max 1 (round (0 * ratio)) demands a minimum length of 1. -/
theorem resampleLinear_empty_equal_rates_counterexample :
    (resampleLinear [] 16000 16000).length = 0 ∧
    (max 1 (jsRound ((([] : List ℚ).length : ℚ) * (16000 / 16000)))).toNat = 1 ∧
    (resampleLinear [] 16000 16000).length
      ≠ (max 1 (jsRound ((([] : List ℚ).length : ℚ) * (16000 / 16000)))).toNat := by
  have h0 : (resampleLinear [] 16000 16000).length = 0 := by
    unfold resampleLinear
    rw [if_pos rfl]
    rfl
  have h1 : (max 1 (jsRound ((([] : List ℚ).length : ℚ) * (16000 / 16000)))).toNat = 1 := by
    unfold jsRound
    norm_num
  refine ⟨h0, h1, ?_⟩
  rw [h0, h1]
  norm_num

/-- C8 amended: when the two rates differ, the output length is
round(inputLength * targetRate / sourceRate) with a minimum of 1; when the
rates are equal the input buffer itself is returned, so the length is the
input length (in particular 0 for the empty input, not 1). -/
theorem resampleLinear_length_formula (input : List ℚ) (inputRate outputRate : ℚ) :
    (resampleLinear input inputRate outputRate).length =
      if inputRate = outputRate then input.length
      else (max 1 (jsRound ((input.length : ℚ) * (outputRate / inputRate)))).toNat := by
  unfold resampleLinear
  split
  · rfl
  · simp only [List.length_map, List.length_range]

/-- C6: for every readable source canvas in which no pixel's ink value
1 - red/255 exceeds the threshold 0.12, preprocessMnistFromCanvas returns the
all-zero 784-entry tensor with hasInk = false, and does not throw. -/
theorem blank_canvas_all_zero (g : ImageGrid) (render : ℕ → ℕ)
    (hblank : ∀ y < g.height, ∀ x < g.width, inkAt g x y ≤ inkThreshold) :
    preprocessMnistFromCanvas (some g) render =
      Except.ok { tensorData := List.replicate (28 * 28) 0, hasInk := false } := by
  have hbb := bboxScan_blank g hblank
  simp only [preprocessMnistFromCanvas, hbb]
  norm_num

/-- Witness for C6 at a concrete 1x1 all-white canvas. -/
theorem blank_canvas_all_zero_witness :
    (∀ y < (1 : ℕ), ∀ x < (1 : ℕ),
        inkAt { width := 1, height := 1, data := fun _ => 255 } x y ≤ inkThreshold) ∧
    preprocessMnistFromCanvas (some { width := 1, height := 1, data := fun _ => 255 })
        (fun _ => 0)
      = Except.ok { tensorData := List.replicate (28 * 28) 0, hasInk := false } := by
  have hb : ∀ y < (1 : ℕ), ∀ x < (1 : ℕ),
      inkAt { width := 1, height := 1, data := fun _ => 255 } x y ≤ inkThreshold := by
    intro y _ x _
    unfold inkAt inkThreshold
    norm_num
  exact ⟨hb, blank_canvas_all_zero { width := 1, height := 1, data := fun _ => 255 }
    (fun _ => 0) hb⟩

/-! ## Bit reversal (src/lib/melSpectrogram.ts lines 23-42)

Source:
  function bitReversePermutation(re, im) \x7b
    const n = re.length;
    let j = 0;
    for (let i = 1; i < n; i++) \x7b
      let bit = n >> 1;
      while (j & bit) \x7b j ^= bit; bit >>= 1; \x7d
      j ^= bit;
      if (i < j) \x7b swap re[i],re[j]; swap im[i],im[j]; \x7d
    \x7d
  \x7d
with n = 2^k.  The re/im pair is modelled as a single array of complex
numbers (a complex number is literally a pair of reals), and the while loop
as brStep with the bit position as fuel: bit starts at 2^(k-1), and when the
loop exhausts all bits the final j ^= 0 is the identity, matching brStep 0. -/

/-- Reverse of the low k bits of i: the LSB of i becomes the top bit. -/
def bitRev : ℕ → ℕ → ℕ
  | 0, _ => 0
  | k + 1, i => i % 2 * 2 ^ k + bitRev k (i / 2)

lemma bitRev_lt (k : ℕ) : ∀ i, bitRev k i < 2 ^ k := by
  induction k with
  | zero => intro i; simp [bitRev]
  | succ k ih =>
      intro i
      have h1 : i % 2 ≤ 1 := by omega
      have h2 := ih (i / 2)
      have h3 : i % 2 * 2 ^ k ≤ 2 ^ k := by
        calc i % 2 * 2 ^ k ≤ 1 * 2 ^ k := Nat.mul_le_mul_right _ h1
          _ = 2 ^ k := one_mul _
      calc bitRev (k + 1) i = i % 2 * 2 ^ k + bitRev k (i / 2) := rfl
        _ < 2 ^ k + 2 ^ k := by omega
        _ = 2 ^ (k + 1) := by ring

lemma bitRev_zero (k : ℕ) : bitRev k 0 = 0 := by
  induction k with
  | zero => rfl
  | succ k ih => simp [bitRev, ih]

lemma bitRev_two_mul (k q : ℕ) : bitRev (k + 1) (2 * q) = bitRev k q := by
  have h1 : 2 * q % 2 = 0 := by omega
  have h2 : 2 * q / 2 = q := by omega
  show 2 * q % 2 * 2 ^ k + bitRev k (2 * q / 2) = bitRev k q
  rw [h1, h2]
  simp

lemma bitRev_two_mul_add_one (k q : ℕ) :
    bitRev (k + 1) (2 * q + 1) = 2 ^ k + bitRev k q := by
  have h1 : (2 * q + 1) % 2 = 1 := by omega
  have h2 : (2 * q + 1) / 2 = q := by omega
  show (2 * q + 1) % 2 * 2 ^ k + bitRev k ((2 * q + 1) / 2) = 2 ^ k + bitRev k q
  rw [h1, h2, one_mul]

lemma bitRev_shift (k : ℕ) : ∀ a b, a < 2 → b < 2 ^ k →
    bitRev (k + 1) (a * 2 ^ k + b) = 2 * bitRev k b + a := by
  induction k with
  | zero =>
      intro a b ha hb
      interval_cases b
      interval_cases a <;> decide
  | succ k ih =>
      intro a b ha hb
      have hc : (0 : ℕ) < 2 ^ k := Nat.pos_pow_of_pos k (by norm_num)
      have hp : (2 : ℕ) ^ (k + 1) = 2 * 2 ^ k := by ring
      have ha01 : a = 0 ∨ a = 1 := by omega
      have hmod : (a * 2 ^ (k + 1) + b) % 2 = b % 2 := by
        rcases ha01 with h | h <;> subst h <;> rw [hp] <;> omega
      have hdiv : (a * 2 ^ (k + 1) + b) / 2 = a * 2 ^ k + b / 2 := by
        rcases ha01 with h | h <;> subst h <;> rw [hp] <;> omega
      have hb2 : b / 2 < 2 ^ k := by
        rw [hp] at hb
        omega
      calc bitRev (k + 2) (a * 2 ^ (k + 1) + b)
          = (a * 2 ^ (k + 1) + b) % 2 * 2 ^ (k + 1)
              + bitRev (k + 1) ((a * 2 ^ (k + 1) + b) / 2) := rfl
        _ = b % 2 * 2 ^ (k + 1) + bitRev (k + 1) (a * 2 ^ k + b / 2) := by
            rw [hmod, hdiv]
        _ = b % 2 * 2 ^ (k + 1) + (2 * bitRev k (b / 2) + a) := by
            rw [ih a (b / 2) ha hb2]
        _ = 2 * (b % 2 * 2 ^ k + bitRev k (b / 2)) + a := by
            rw [hp]
            ring
        _ = 2 * bitRev (k + 1) b + a := rfl

lemma bitRev_bitRev (k : ℕ) : ∀ i, i < 2 ^ k → bitRev k (bitRev k i) = i := by
  induction k with
  | zero =>
      intro i hi
      interval_cases i
      rfl
  | succ k ih =>
      intro i hi
      have h1 : i % 2 < 2 := by omega
      have h2 : bitRev k (i / 2) < 2 ^ k := bitRev_lt k _
      have h3 : i / 2 < 2 ^ k := by
        have hp : (2 : ℕ) ^ (k + 1) = 2 * 2 ^ k := by ring
        rw [hp] at hi
        omega
      calc bitRev (k + 1) (bitRev (k + 1) i)
          = bitRev (k + 1) (i % 2 * 2 ^ k + bitRev k (i / 2)) := rfl
        _ = 2 * bitRev k (bitRev k (i / 2)) + i % 2 := bitRev_shift k _ _ h1 h2
        _ = 2 * (i / 2) + i % 2 := by rw [ih _ h3]
        _ = i := by omega

/-- let bit = n >> 1; while (j & bit) \x7b j ^= bit; bit >>= 1; \x7d j ^= bit; -/
def brStep : ℕ → ℕ → ℕ
  | 0, j => j
  | k + 1, j => if j &&& 2 ^ k ≠ 0 then brStep k (j ^^^ 2 ^ k) else j ^^^ 2 ^ k

lemma and_two_pow_eq_zero {j k : ℕ} (h : j < 2 ^ k) : j &&& 2 ^ k = 0 := by
  rw [Nat.and_two_pow, Nat.testBit_eq_false_of_lt h]
  simp

lemma and_two_pow_ne_zero {j k : ℕ} (h : j < 2 ^ k) : (2 ^ k + j) &&& 2 ^ k ≠ 0 := by
  have ht : (2 ^ k + j).testBit k = true := by
    rw [Nat.testBit_to_div_mod]
    have hd : (2 ^ k + j) / 2 ^ k = 1 := by
      rw [Nat.add_comm, Nat.add_div_right j (Nat.pos_pow_of_pos k (by norm_num)),
        Nat.div_eq_of_lt h]
    rw [hd]
    simp
  rw [Nat.and_two_pow, ht]
  have hpos : (0 : ℕ) < 2 ^ k := Nat.pos_pow_of_pos k (by norm_num)
  simp

lemma xor_two_pow_of_lt : ∀ (k j : ℕ), j < 2 ^ k → j ^^^ 2 ^ k = j + 2 ^ k := by
  intro k
  induction k with
  | zero =>
      intro j h
      have hj : j = 0 := by omega
      subst hj
      decide
  | succ k ih =>
      intro j h
      have hp : (2 : ℕ) ^ (k + 1) = 2 * 2 ^ k := by ring
      have hbitpow : Nat.bit false (2 ^ k) = 2 ^ (k + 1) := by
        show 2 * 2 ^ k = 2 ^ (k + 1)
        omega
      rcases Nat.even_or_odd j with he | ho
      · obtain ⟨m, hm⟩ := he
        have hm2 : j = 2 * m := by omega
        have hmlt : m < 2 ^ k := by omega
        have hbitj : Nat.bit false m = j := by
          show 2 * m = j
          omega
        calc j ^^^ 2 ^ (k + 1) = Nat.bit false m ^^^ Nat.bit false (2 ^ k) := by
              rw [hbitj, hbitpow]
          _ = Nat.bit (false != false) (m ^^^ 2 ^ k) := Nat.xor_bit _ _ _ _
          _ = Nat.bit false (m + 2 ^ k) := by rw [ih m hmlt]; rfl
          _ = j + 2 ^ (k + 1) := by
              show 2 * (m + 2 ^ k) = j + 2 ^ (k + 1)
              omega
      · obtain ⟨m, hm⟩ := ho
        have hmlt : m < 2 ^ k := by omega
        have hbitj : Nat.bit true m = j := by
          show 2 * m + 1 = j
          omega
        calc j ^^^ 2 ^ (k + 1) = Nat.bit true m ^^^ Nat.bit false (2 ^ k) := by
              rw [hbitj, hbitpow]
          _ = Nat.bit (true != false) (m ^^^ 2 ^ k) := Nat.xor_bit _ _ _ _
          _ = Nat.bit true (m + 2 ^ k) := by rw [ih m hmlt]; rfl
          _ = j + 2 ^ (k + 1) := by
              show 2 * (m + 2 ^ k) + 1 = j + 2 ^ (k + 1)
              omega

lemma xor_two_pow_cancel {k j : ℕ} (h : j < 2 ^ k) : (2 ^ k + j) ^^^ 2 ^ k = j := by
  have h1 : 2 ^ k + j = j ^^^ 2 ^ k := by
    rw [xor_two_pow_of_lt k j h]
    omega
  rw [h1, Nat.xor_assoc, Nat.xor_self, Nat.xor_zero]

lemma brStep_bitRev (k : ℕ) : ∀ i, i + 1 < 2 ^ k →
    brStep k (bitRev k i) = bitRev k (i + 1) := by
  induction k with
  | zero =>
      intro i hi
      simp at hi
  | succ k ih =>
      intro i hi
      have hp : (2 : ℕ) ^ (k + 1) = 2 * 2 ^ k := by ring
      rcases Nat.even_or_odd i with he | ho
      · obtain ⟨m, hm⟩ := he
        have hi2 : i = 2 * m := by omega
        have hlt : bitRev k m < 2 ^ k := bitRev_lt k m
        have hr : bitRev (k + 1) i = bitRev k m := by
          rw [hi2, bitRev_two_mul]
        have hand : ¬(bitRev k m &&& 2 ^ k ≠ 0) := by
          rw [and_two_pow_eq_zero hlt]
          simp
        calc brStep (k + 1) (bitRev (k + 1) i)
            = brStep (k + 1) (bitRev k m) := by rw [hr]
          _ = bitRev k m ^^^ 2 ^ k := by
              rw [brStep, if_neg hand]
          _ = bitRev k m + 2 ^ k := xor_two_pow_of_lt k _ hlt
          _ = bitRev (k + 1) (i + 1) := by
              rw [show i + 1 = 2 * m + 1 from by omega, bitRev_two_mul_add_one]
              omega
      · obtain ⟨m, hm⟩ := ho
        have hlt : bitRev k m < 2 ^ k := bitRev_lt k m
        have hm1 : m + 1 < 2 ^ k := by omega
        have hr : bitRev (k + 1) i = 2 ^ k + bitRev k m := by
          rw [hm, bitRev_two_mul_add_one]
        calc brStep (k + 1) (bitRev (k + 1) i)
            = brStep (k + 1) (2 ^ k + bitRev k m) := by rw [hr]
          _ = brStep k ((2 ^ k + bitRev k m) ^^^ 2 ^ k) := by
              rw [brStep, if_pos (and_two_pow_ne_zero hlt)]
          _ = brStep k (bitRev k m) := by rw [xor_two_pow_cancel hlt]
          _ = bitRev k (m + 1) := ih m hm1
          _ = bitRev (k + 1) (i + 1) := by
              rw [show i + 1 = 2 * (m + 1) from by omega, bitRev_two_mul]

noncomputable section

/-- The swap of two array entries (tr = re[i]; re[i] = re[j]; re[j] = tr;
and the same for im, with the re/im pair modelled as one complex array). -/
def swapAt (a : ℕ → ℂ) (i j : ℕ) : ℕ → ℂ :=
  Function.update (Function.update a i (a j)) j (a i)

lemma swapAt_left (a : ℕ → ℂ) {i j : ℕ} (hij : i ≠ j) : swapAt a i j i = a j := by
  unfold swapAt
  rw [Function.update_noteq hij, Function.update_same]

lemma swapAt_right (a : ℕ → ℂ) (i j : ℕ) : swapAt a i j j = a i := by
  unfold swapAt
  rw [Function.update_same]

lemma swapAt_other (a : ℕ → ℂ) {i j m : ℕ} (hmi : m ≠ i) (hmj : m ≠ j) :
    swapAt a i j m = a m := by
  unfold swapAt
  rw [Function.update_noteq hmj, Function.update_noteq hmi]

/-- One iteration of the bit-reversal for-loop: recompute j by the while
loop, then swap entries i and j when i < j. -/
def brStepFold (k : ℕ) (s : ℕ × (ℕ → ℂ)) (i : ℕ) : ℕ × (ℕ → ℂ) :=
  let j := brStep k s.1
  (j, if i < j then swapAt s.2 i j else s.2)

def bitReversePermutation (k : ℕ) (a : ℕ → ℂ) : ℕ → ℂ :=
  ((List.range' 1 (2 ^ k - 1)).foldl (brStepFold k) (0, a)).2

/-- Loop invariant after iterations i = 1..t: the running j is the
bit-reverse of t, entries whose swap (if any) has already happened hold the
permuted values, the rest still hold the original values. -/
def brInv (k : ℕ) (a0 : ℕ → ℂ) (t : ℕ) (s : ℕ × (ℕ → ℂ)) : Prop :=
  s.1 = bitRev k t ∧
  (∀ m, m < 2 ^ k → min m (bitRev k m) ≤ t → s.2 m = a0 (bitRev k m)) ∧
  (∀ m, m < 2 ^ k → t < min m (bitRev k m) → s.2 m = a0 m) ∧
  (∀ m, 2 ^ k ≤ m → s.2 m = a0 m)

lemma brInv_zero (k : ℕ) (a0 : ℕ → ℂ) : brInv k a0 0 (0, a0) := by
  refine ⟨(bitRev_zero k).symm, ?_, fun m _ _ => rfl, fun m _ => rfl⟩
  intro m hm hmin
  have hcase : m = 0 ∨ bitRev k m = 0 := by omega
  have hm0 : m = 0 := by
    rcases hcase with h | h
    · exact h
    · have hi := bitRev_bitRev k m hm
      rw [h, bitRev_zero] at hi
      exact hi.symm
  subst hm0
  rw [bitRev_zero]

lemma brInv_step (k : ℕ) (a0 : ℕ → ℂ) (t : ℕ) (s : ℕ × (ℕ → ℂ))
    (ht : t + 1 < 2 ^ k) (hs : brInv k a0 t s) :
    brInv k a0 (t + 1) (brStepFold k s (t + 1)) := by
  obtain ⟨hj, hset, hunset, hhigh⟩ := hs
  have hjnew : brStep k s.1 = bitRev k (t + 1) := by
    rw [hj]
    exact brStep_bitRev k t ht
  set r := bitRev k (t + 1) with hr
  have hrlt : r < 2 ^ k := bitRev_lt k _
  have hrr : bitRev k r = t + 1 := bitRev_bitRev k (t + 1) ht
  have hsnd : (brStepFold k s (t + 1)).2
      = if t + 1 < r then swapAt s.2 (t + 1) r else s.2 := by
    unfold brStepFold
    rw [hjnew]
  refine ⟨by unfold brStepFold; rw [hjnew], ?_, ?_, ?_⟩
  · -- entries settled by time t+1
    intro m hm hmin
    rw [hsnd]
    by_cases hold : min m (bitRev k m) ≤ t
    · -- settled earlier: untouched by this iteration's swap
      by_cases hsw : t + 1 < r
      · rw [if_pos hsw]
        have hm1 : m ≠ t + 1 := by
          intro he
          subst he
          omega
        have hm2 : m ≠ r := by
          intro he
          subst he
          rw [hrr] at hold
          omega
        rw [swapAt_other _ hm1 hm2]
        exact hset m hm hold
      · rw [if_neg hsw]
        exact hset m hm hold
    · -- newly settled: min m (bitRev k m) = t + 1
      have hmin_eq : min m (bitRev k m) = t + 1 := by omega
      rcases le_or_lt m (bitRev k m) with hmle | hmgt
      · have hm_eq : m = t + 1 := by omega
        subst hm_eq
        by_cases hsw : t + 1 < r
        · rw [if_pos hsw, swapAt_left _ (ne_of_lt hsw)]
          have hsr : s.2 r = a0 r := by
            apply hunset r hrlt
            rw [hrr]
            omega
          rw [hsr]
        · rw [if_neg hsw]
          have hreq : r = t + 1 := by omega
          have : s.2 (t + 1) = a0 (t + 1) := by
            apply hunset (t + 1) ht
            omega
          rw [this, ← hr, hreq]
      · have hbr_eq : bitRev k m = t + 1 := by omega
        have hm_eq : m = r := by
          rw [hr, ← hbr_eq]
          exact (bitRev_bitRev k m hm).symm
        subst hm_eq
        have hsw : t + 1 < r := by omega
        rw [if_pos hsw, swapAt_right]
        have : s.2 (t + 1) = a0 (t + 1) := by
          apply hunset (t + 1) ht
          omega
        rw [this, hrr]
  · -- entries still untouched after t+1 iterations
    intro m hm hmin
    rw [hsnd]
    have hm1 : m ≠ t + 1 := by omega
    have hm2 : m ≠ r := by
      intro he
      subst he
      rw [hrr] at hmin
      omega
    by_cases hsw : t + 1 < r
    · rw [if_pos hsw, swapAt_other _ hm1 hm2]
      exact hunset m hm (by omega)
    · rw [if_neg hsw]
      exact hunset m hm (by omega)
  · -- entries beyond the array are never touched
    intro m hm
    rw [hsnd]
    have hm1 : m ≠ t + 1 := by omega
    have hm2 : m ≠ r := by omega
    by_cases hsw : t + 1 < r
    · rw [if_pos hsw, swapAt_other _ hm1 hm2]
      exact hhigh m hm
    · rw [if_neg hsw]
      exact hhigh m hm

lemma brPass_inv (k : ℕ) (a0 : ℕ → ℂ) :
    ∀ t, t < 2 ^ k →
      brInv k a0 t ((List.range' 1 t).foldl (brStepFold k) (0, a0)) := by
  intro t
  induction t with
  | zero =>
      intro _
      exact brInv_zero k a0
  | succ t ih =>
      intro h
      have h1 : t < 2 ^ k := by omega
      rw [List.range'_1_concat, List.foldl_append, List.foldl_cons, List.foldl_nil]
      have hstep := brInv_step k a0 t _ h (ih h1)
      have harith : 1 + t = t + 1 := by omega
      rw [harith]
      exact hstep

lemma bitReversePermutation_lt (k : ℕ) (a : ℕ → ℂ) (m : ℕ) (hm : m < 2 ^ k) :
    bitReversePermutation k a m = a (bitRev k m) := by
  have hpos : (0 : ℕ) < 2 ^ k := Nat.pos_pow_of_pos k (by norm_num)
  obtain ⟨-, hset, -, -⟩ := brPass_inv k a (2 ^ k - 1) (by omega)
  have hb := bitRev_lt k m
  exact hset m hm (by omega)

lemma bitReversePermutation_ge (k : ℕ) (a : ℕ → ℂ) (m : ℕ) (hm : 2 ^ k ≤ m) :
    bitReversePermutation k a m = a m := by
  have hpos : (0 : ℕ) < 2 ^ k := Nat.pos_pow_of_pos k (by norm_num)
  obtain ⟨-, -, -, hhigh⟩ := brPass_inv k a (2 ^ k - 1) (by omega)
  exact hhigh m hm

/-! ## Butterfly stages (src/lib/melSpectrogram.ts lines 44-69)

Source:
  function fftInPlace(re, im) \x7b
    const n = re.length;
    bitReversePermutation(re, im);
    for (let len = 2; len <= n; len <<= 1) \x7b
      const ang = (-2 * Math.PI) / len;
      const wLenRe = Math.cos(ang); const wLenIm = Math.sin(ang);
      for (let i = 0; i < n; i += len) \x7b
        let wRe = 1; let wIm = 0;
        for (let j = 0; j < len / 2; j++) \x7b
          const uRe = re[i+j]; const uIm = im[i+j];
          const vRe = re[i+j+len/2]*wRe - im[i+j+len/2]*wIm;
          const vIm = re[i+j+len/2]*wIm + im[i+j+len/2]*wRe;
          re[i+j] = uRe + vRe;       im[i+j] = uIm + vIm;
          re[i+j+len/2] = uRe - vRe; im[i+j+len/2] = uIm - vIm;
          const nextWRe = wRe*wLenRe - wIm*wLenIm;
          wIm = wRe*wLenIm + wIm*wLenRe; wRe = nextWRe;
        \x7d
      \x7d
    \x7d
  \x7d
with n = 2^k, len = 2^(s+1) for stage s < k. -/

lemma mk_mul (x y : ℂ) :
    (⟨x.re * y.re - x.im * y.im, x.re * y.im + x.im * y.re⟩ : ℂ) = x * y := by
  apply Complex.ext <;> simp [Complex.mul_re, Complex.mul_im]

lemma mk_add_mul (x y w : ℂ) :
    (⟨x.re + (y.re * w.re - y.im * w.im), x.im + (y.re * w.im + y.im * w.re)⟩ : ℂ)
      = x + y * w := by
  apply Complex.ext <;> simp [Complex.mul_re, Complex.mul_im]

lemma mk_sub_mul (x y w : ℂ) :
    (⟨x.re - (y.re * w.re - y.im * w.im), x.im - (y.re * w.im + y.im * w.re)⟩ : ℂ)
      = x - y * w := by
  apply Complex.ext <;> simp [Complex.mul_re, Complex.mul_im]

lemma mk_one : (⟨1, 0⟩ : ℂ) = 1 := by
  apply Complex.ext <;> simp

/-- const ang = (-2 * Math.PI) / len; (wLenRe, wLenIm) = (cos ang, sin ang). -/
def wTw (len : ℕ) : ℂ := ⟨Real.cos (-2 * Real.pi / len), Real.sin (-2 * Real.pi / len)⟩

/-- One butterfly, with the temporaries uRe = re[i+j], uIm = im[i+j],
vRe = re[i+j+lenH]*wRe - im[i+j+lenH]*wIm,
vIm = re[i+j+lenH]*wIm + im[i+j+lenH]*wRe inlined:
writes (uRe+vRe, uIm+vIm) at i+j and (uRe-vRe, uIm-vIm) at i+j+lenH. -/
def butterfly (lenH i j : ℕ) (w : ℂ) (a : ℕ → ℂ) : ℕ → ℂ :=
  Function.update
    (Function.update a (i + j)
      ⟨(a (i + j)).re + ((a (i + j + lenH)).re * w.re - (a (i + j + lenH)).im * w.im),
       (a (i + j)).im + ((a (i + j + lenH)).re * w.im + (a (i + j + lenH)).im * w.re)⟩)
    (i + j + lenH)
    ⟨(a (i + j)).re - ((a (i + j + lenH)).re * w.re - (a (i + j + lenH)).im * w.im),
     (a (i + j)).im - ((a (i + j + lenH)).re * w.im + (a (i + j + lenH)).im * w.re)⟩

lemma butterfly_eq (lenH i j : ℕ) (w : ℂ) (a : ℕ → ℂ) :
    butterfly lenH i j w a
      = Function.update
          (Function.update a (i + j) (a (i + j) + a (i + j + lenH) * w))
          (i + j + lenH) (a (i + j) - a (i + j + lenH) * w) := by
  unfold butterfly
  rw [mk_add_mul, mk_sub_mul]

/-- One iteration of the innermost loop: butterfly at j with the running
twiddle s.1, then rotate the twiddle by wL. -/
def jLoopFold (lenH i : ℕ) (wL : ℂ) (s : ℂ × (ℕ → ℂ)) (j : ℕ) : ℂ × (ℕ → ℂ) :=
  (⟨s.1.re * wL.re - s.1.im * wL.im, s.1.re * wL.im + s.1.im * wL.re⟩,
   butterfly lenH i j s.1 s.2)

def jLoop (lenH : ℕ) (wL : ℂ) (i : ℕ) (a : ℕ → ℂ) : ℕ → ℂ :=
  ((List.range lenH).foldl (jLoopFold lenH i wL) (⟨1, 0⟩, a)).2

/-- Closed form of one block transform: position m in the lower half of the
block holds a[m] + w^(m-i)·a[m+lenH], in the upper half
a[m-lenH] - w^(m-lenH-i)·a[m]; elsewhere the array is unchanged. -/
def blockForm (lenH : ℕ) (wL : ℂ) (i : ℕ) (a : ℕ → ℂ) (m : ℕ) : ℂ :=
  if i ≤ m ∧ m < i + lenH then a m + wL ^ (m - i) * a (m + lenH)
  else if i + lenH ≤ m ∧ m < i + lenH + lenH then
    a (m - lenH) - wL ^ (m - lenH - i) * a m
  else a m

lemma jLoop_steps (lenH : ℕ) (wL : ℂ) (i : ℕ) (a : ℕ → ℂ) :
    ∀ jc, jc ≤ lenH →
      ((List.range jc).foldl (jLoopFold lenH i wL) (⟨1, 0⟩, a))
        = (wL ^ jc,
           fun m =>
             if i ≤ m ∧ m < i + jc then a m + wL ^ (m - i) * a (m + lenH)
             else if i + lenH ≤ m ∧ m < i + lenH + jc then
               a (m - lenH) - wL ^ (m - lenH - i) * a m
             else a m) := by
  intro jc
  induction jc with
  | zero =>
      intro _
      rw [List.range_zero, List.foldl_nil]
      refine Prod.ext ?_ ?_
      · show (⟨1, 0⟩ : ℂ) = wL ^ 0
        rw [pow_zero]
        exact mk_one
      · show a = _
        funext m
        show a m = if i ≤ m ∧ m < i + 0 then a m + wL ^ (m - i) * a (m + lenH)
          else if i + lenH ≤ m ∧ m < i + lenH + 0 then
            a (m - lenH) - wL ^ (m - lenH - i) * a m
          else a m
        rw [if_neg (by omega), if_neg (by omega)]
  | succ jc ih =>
      intro hjc
      have hjc' : jc ≤ lenH := by omega
      have hjlt : jc < lenH := by omega
      rw [List.range_succ, List.foldl_append, ih hjc', List.foldl_cons, List.foldl_nil]
      set f : ℕ → ℂ := fun m =>
        if i ≤ m ∧ m < i + jc then a m + wL ^ (m - i) * a (m + lenH)
        else if i + lenH ≤ m ∧ m < i + lenH + jc then
          a (m - lenH) - wL ^ (m - lenH - i) * a m
        else a m with hf
      have hread1 : f (i + jc) = a (i + jc) := by
        simp only [hf]
        rw [if_neg (by omega), if_neg (by omega)]
      have hread2 : f (i + jc + lenH) = a (i + jc + lenH) := by
        simp only [hf]
        rw [if_neg (by omega), if_neg (by omega)]
      refine Prod.ext ?_ ?_
      · show (⟨(wL ^ jc).re * wL.re - (wL ^ jc).im * wL.im,
            (wL ^ jc).re * wL.im + (wL ^ jc).im * wL.re⟩ : ℂ) = wL ^ (jc + 1)
        rw [mk_mul, pow_succ]
      · show butterfly lenH i jc (wL ^ jc) f = _
        rw [butterfly_eq, hread1, hread2]
        funext m
        by_cases hm2 : m = i + jc + lenH
        · subst hm2
          rw [Function.update_same]
          show _ = if i ≤ i + jc + lenH ∧ i + jc + lenH < i + (jc + 1) then _
            else if i + lenH ≤ i + jc + lenH ∧ i + jc + lenH < i + lenH + (jc + 1) then
              a (i + jc + lenH - lenH) - wL ^ (i + jc + lenH - lenH - i) * a (i + jc + lenH)
            else a (i + jc + lenH)
          rw [if_neg (by omega), if_pos (by omega)]
          have h1 : i + jc + lenH - lenH = i + jc := by omega
          rw [h1, show i + jc - i = jc from by omega, mul_comm]
        · rw [Function.update_noteq hm2]
          by_cases hm1 : m = i + jc
          · subst hm1
            rw [Function.update_same]
            show _ = if i ≤ i + jc ∧ i + jc < i + (jc + 1) then
                a (i + jc) + wL ^ (i + jc - i) * a (i + jc + lenH)
              else _
            rw [if_pos (by omega)]
            have h1 : i + jc - i = jc := by omega
            rw [h1, mul_comm]
          · rw [Function.update_noteq hm1]
            show f m = if i ≤ m ∧ m < i + (jc + 1) then a m + wL ^ (m - i) * a (m + lenH)
              else if i + lenH ≤ m ∧ m < i + lenH + (jc + 1) then
                a (m - lenH) - wL ^ (m - lenH - i) * a m
              else a m
            simp only [hf]
            by_cases hc1 : i ≤ m ∧ m < i + jc
            · rw [if_pos hc1, if_pos (by omega)]
            · rw [if_neg hc1]
              by_cases hc2 : i + lenH ≤ m ∧ m < i + lenH + jc
              · rw [if_pos hc2, if_neg (by omega), if_pos (by omega)]
              · rw [if_neg hc2, if_neg (by omega), if_neg (by omega)]

lemma jLoop_eq_blockForm (lenH : ℕ) (wL : ℂ) (i : ℕ) (a : ℕ → ℂ) :
    jLoop lenH wL i a = blockForm lenH wL i a := by
  unfold jLoop
  rw [jLoop_steps lenH wL i a lenH le_rfl]
  funext m
  unfold blockForm
  rfl

def iLoop (len n : ℕ) (wL : ℂ) (a : ℕ → ℂ) : ℕ → ℂ :=
  (List.range (n / len)).foldl (fun b bi => jLoop (len / 2) wL (bi * len) b) a

lemma blockForm_of_lt {lenH : ℕ} {wL : ℂ} {i : ℕ} {a : ℕ → ℂ} {m : ℕ} (h : m < i) :
    blockForm lenH wL i a m = a m := by
  unfold blockForm
  rw [if_neg (by omega), if_neg (by omega)]

lemma blockForm_of_ge {lenH : ℕ} {wL : ℂ} {i : ℕ} {a : ℕ → ℂ} {m : ℕ}
    (h : i + lenH + lenH ≤ m) :
    blockForm lenH wL i a m = a m := by
  unfold blockForm
  rw [if_neg (by omega), if_neg (by omega)]

lemma blockForm_lower {lenH : ℕ} {wL : ℂ} {i : ℕ} {a : ℕ → ℂ} {m : ℕ}
    (h1 : i ≤ m) (h2 : m < i + lenH) :
    blockForm lenH wL i a m = a m + wL ^ (m - i) * a (m + lenH) := by
  unfold blockForm
  rw [if_pos ⟨h1, h2⟩]

lemma blockForm_upper {lenH : ℕ} {wL : ℂ} {i : ℕ} {a : ℕ → ℂ} {m : ℕ}
    (h1 : i + lenH ≤ m) (h2 : m < i + lenH + lenH) :
    blockForm lenH wL i a m = a (m - lenH) - wL ^ (m - lenH - i) * a m := by
  unfold blockForm
  rw [if_neg (by omega), if_pos ⟨h1, h2⟩]

lemma iLoop_steps (lenH : ℕ) (wL : ℂ) (a : ℕ → ℂ) :
    ∀ B, ((List.range B).foldl (fun b bi => jLoop lenH wL (bi * (2 * lenH)) b) a)
      = fun m => if m < B * (2 * lenH)
          then blockForm lenH wL (m / (2 * lenH) * (2 * lenH)) a m
          else a m := by
  intro B
  induction B with
  | zero =>
      rw [List.range_zero, List.foldl_nil]
      funext m
      rw [if_neg (by omega)]
  | succ B ih =>
      rw [List.range_succ, List.foldl_append, ih, List.foldl_cons, List.foldl_nil,
        jLoop_eq_blockForm]
      set g : ℕ → ℂ := fun m => if m < B * (2 * lenH)
        then blockForm lenH wL (m / (2 * lenH) * (2 * lenH)) a m
        else a m with hg
      have hgin : ∀ t, B * (2 * lenH) ≤ t → g t = a t := by
        intro t ht
        simp only [hg]
        rw [if_neg (by omega)]
      have hgold : ∀ t, t < B * (2 * lenH) →
          g t = blockForm lenH wL (t / (2 * lenH) * (2 * lenH)) a t := by
        intro t ht
        simp only [hg]
        rw [if_pos ht]
      have hsucc : (B + 1) * (2 * lenH) = B * (2 * lenH) + 2 * lenH := by ring
      funext m
      show blockForm lenH wL (B * (2 * lenH)) g m
        = if m < (B + 1) * (2 * lenH)
            then blockForm lenH wL (m / (2 * lenH) * (2 * lenH)) a m
            else a m
      rw [hsucc]
      by_cases h1 : m < B * (2 * lenH)
      · rw [blockForm_of_lt (by omega), if_pos (by omega)]
        exact hgold m h1
      · by_cases h2 : m < B * (2 * lenH) + 2 * lenH
        · have hdiv : m / (2 * lenH) = B := by
            have hlenH : 0 < 2 * lenH := by
              by_contra hc
              have : lenH = 0 := by omega
              subst this
              omega
            exact Nat.div_eq_of_lt_le (by omega) (by rw [hsucc]; omega)
          rw [if_pos (by omega), hdiv]
          by_cases h3 : m < B * (2 * lenH) + lenH
          · rw [blockForm_lower (by omega) (by omega), blockForm_lower (by omega) (by omega)]
            rw [hgin m (by omega), hgin (m + lenH) (by omega)]
          · rw [blockForm_upper (by omega) (by omega), blockForm_upper (by omega) (by omega)]
            rw [hgin m (by omega), hgin (m - lenH) (by omega)]
        · rw [blockForm_of_ge (by omega), if_neg (by omega)]
          exact hgin m (by omega)

lemma iLoop_char (lenH nb : ℕ) (hpos : 0 < lenH) (wL : ℂ) (a : ℕ → ℂ) :
    iLoop (2 * lenH) (nb * (2 * lenH)) wL a
      = fun m => if m < nb * (2 * lenH)
          then blockForm lenH wL (m / (2 * lenH) * (2 * lenH)) a m
          else a m := by
  unfold iLoop
  have hdiv2 : 2 * lenH / 2 = lenH := by omega
  have hdivn : nb * (2 * lenH) / (2 * lenH) = nb := Nat.mul_div_cancel _ (by omega)
  simp only [hdiv2, hdivn]
  exact iLoop_steps lenH wL a nb

lemma blockForm_congr {lenH : ℕ} {wL : ℂ} {i : ℕ} {a b : ℕ → ℂ} {m : ℕ}
    (hm : a m = b m)
    (hp : m < i + lenH → a (m + lenH) = b (m + lenH))
    (hq : i + lenH ≤ m → a (m - lenH) = b (m - lenH)) :
    blockForm lenH wL i a m = blockForm lenH wL i b m := by
  unfold blockForm
  split_ifs with h1 h2
  · rw [hm, hp h1.2]
  · rw [hq h2.1, hm]
  · exact hm

lemma iLoop_congr (lenH nb : ℕ) (hpos : 0 < lenH) (wL : ℂ) (a b : ℕ → ℂ)
    (hab : ∀ t, t < nb * (2 * lenH) → a t = b t) (m : ℕ) (hm : m < nb * (2 * lenH)) :
    iLoop (2 * lenH) (nb * (2 * lenH)) wL a m
      = iLoop (2 * lenH) (nb * (2 * lenH)) wL b m := by
  rw [iLoop_char lenH nb hpos wL a, iLoop_char lenH nb hpos wL b]
  dsimp only
  rw [if_pos hm, if_pos hm]
  have hiL : m / (2 * lenH) * (2 * lenH) ≤ m := Nat.div_mul_le_self m (2 * lenH)
  have hblock : m / (2 * lenH) * (2 * lenH) + 2 * lenH ≤ nb * (2 * lenH) := by
    have h1 : m / (2 * lenH) < nb := (Nat.div_lt_iff_lt_mul (by omega)).mpr hm
    calc m / (2 * lenH) * (2 * lenH) + 2 * lenH = (m / (2 * lenH) + 1) * (2 * lenH) := by
          ring
      _ ≤ nb * (2 * lenH) := Nat.mul_le_mul_right _ (by omega)
  apply blockForm_congr
  · exact hab m hm
  · intro hup
    exact hab (m + lenH) (by omega)
  · intro _
    exact hab (m - lenH) (by omega)

lemma iLoop_ge (lenH n : ℕ) (wL : ℂ) (b : ℕ → ℂ) (m : ℕ) (hm : n ≤ m) :
    iLoop (2 * lenH) n wL b m = b m := by
  unfold iLoop
  have hdiv2 : 2 * lenH / 2 = lenH := by omega
  simp only [hdiv2]
  rw [iLoop_steps lenH wL b (n / (2 * lenH))]
  dsimp only
  rw [if_neg]
  have := Nat.div_mul_le_self n (2 * lenH)
  omega

lemma blockForm_shift (lenH : ℕ) (wL : ℂ) (d i : ℕ) (a : ℕ → ℂ) (m : ℕ) :
    blockForm lenH wL (d + i) a (d + m) = blockForm lenH wL i (fun t => a (d + t)) m := by
  unfold blockForm
  by_cases h1 : i ≤ m ∧ m < i + lenH
  · rw [if_pos (by omega), if_pos h1]
    dsimp only
    have he : d + m - (d + i) = m - i := by omega
    have ha : d + m + lenH = d + (m + lenH) := by omega
    rw [he, ha]
  · rw [if_neg (by omega), if_neg h1]
    by_cases h2 : i + lenH ≤ m ∧ m < i + lenH + lenH
    · rw [if_pos (by omega), if_pos h2]
      dsimp only
      have he : d + m - lenH - (d + i) = m - lenH - i := by omega
      have ha : d + m - lenH = d + (m - lenH) := by omega
      rw [he, ha]
    · rw [if_neg (by omega), if_neg h2]

lemma iLoop_split (lenH nb : ℕ) (hpos : 0 < lenH) (wL : ℂ) (a : ℕ → ℂ) (m : ℕ) :
    iLoop (2 * lenH) (2 * (nb * (2 * lenH))) wL a m
      = if m < nb * (2 * lenH) then iLoop (2 * lenH) (nb * (2 * lenH)) wL a m
        else if m < 2 * (nb * (2 * lenH)) then
          iLoop (2 * lenH) (nb * (2 * lenH)) wL
            (fun t => a (nb * (2 * lenH) + t)) (m - nb * (2 * lenH))
        else a m := by
  have hfull : 2 * (nb * (2 * lenH)) = (2 * nb) * (2 * lenH) := by ring
  rw [hfull, iLoop_char lenH (2 * nb) hpos wL a,
    iLoop_char lenH nb hpos wL a,
    iLoop_char lenH nb hpos wL (fun t => a (nb * (2 * lenH) + t))]
  dsimp only
  by_cases h1 : m < nb * (2 * lenH)
  · rw [if_pos (by omega), if_pos h1, if_pos h1]
  · by_cases h2 : m < 2 * nb * (2 * lenH)
    · rw [if_pos (by omega), if_neg h1, if_pos (by omega), if_pos (by omega)]
      have key : ∀ r : ℕ,
          blockForm lenH wL ((nb * (2 * lenH) + r) / (2 * lenH) * (2 * lenH)) a
              (nb * (2 * lenH) + r)
            = blockForm lenH wL (r / (2 * lenH) * (2 * lenH))
                (fun t => a (nb * (2 * lenH) + t)) r := by
        intro r
        have hdiv : (nb * (2 * lenH) + r) / (2 * lenH) = nb + r / (2 * lenH) := by
          rw [Nat.add_comm, Nat.add_mul_div_right _ _ (by omega)]
          omega
        rw [hdiv, show (nb + r / (2 * lenH)) * (2 * lenH)
            = nb * (2 * lenH) + r / (2 * lenH) * (2 * lenH) from by ring]
        exact blockForm_shift lenH wL (nb * (2 * lenH)) (r / (2 * lenH) * (2 * lenH)) a r
      set r := m - nb * (2 * lenH) with hrdef
      have hmr : m = nb * (2 * lenH) + r := by omega
      rw [hmr]
      exact key r
    · rw [if_neg (by omega), if_neg h1, if_neg (by omega)]

/-- The outer stage loop: len = 2, 4, ..., runs S stages on an array of
logical length n (len = 2^(s+1) at stage s). -/
def stagesUpTo (S n : ℕ) (a : ℕ → ℂ) : ℕ → ℂ :=
  (List.range S).foldl (fun b s => iLoop (2 ^ (s + 1)) n (wTw (2 ^ (s + 1))) b) a

/-- fftInPlace = bit-reversal permutation followed by all k stages. -/
def fftInPlace (k : ℕ) (a : ℕ → ℂ) : ℕ → ℂ :=
  stagesUpTo k (2 ^ k) (bitReversePermutation k a)

lemma stagesUpTo_succ (S n : ℕ) (a : ℕ → ℂ) :
    stagesUpTo (S + 1) n a
      = iLoop (2 ^ (S + 1)) n (wTw (2 ^ (S + 1))) (stagesUpTo S n a) := by
  unfold stagesUpTo
  rw [List.range_succ, List.foldl_append, List.foldl_cons, List.foldl_nil]

lemma stagesUpTo_ge (S n : ℕ) (a : ℕ → ℂ) (m : ℕ) (hm : n ≤ m) :
    stagesUpTo S n a m = a m := by
  induction S with
  | zero => rfl
  | succ S ih =>
      rw [stagesUpTo_succ, show (2 : ℕ) ^ (S + 1) = 2 * 2 ^ S from by ring,
        iLoop_ge (2 ^ S) n _ _ m hm]
      exact ih

lemma iLoop_split_pow (S k : ℕ) (hS : S + 1 ≤ k) (wL : ℂ) (a : ℕ → ℂ) (m : ℕ) :
    iLoop (2 ^ (S + 1)) (2 ^ (k + 1)) wL a m
      = if m < 2 ^ k then iLoop (2 ^ (S + 1)) (2 ^ k) wL a m
        else if m < 2 ^ (k + 1) then
          iLoop (2 ^ (S + 1)) (2 ^ k) wL (fun t => a (2 ^ k + t)) (m - 2 ^ k)
        else a m := by
  have hpos : (0 : ℕ) < 2 ^ S := Nat.pos_pow_of_pos S (by norm_num)
  have h1 : (2 : ℕ) ^ (S + 1) = 2 * 2 ^ S := by ring
  have h2 : (2 : ℕ) ^ k = 2 ^ (k - (S + 1)) * (2 * 2 ^ S) := by
    rw [show 2 * 2 ^ S = 2 ^ (S + 1) from by ring, ← pow_add]
    congr 1
    omega
  have h3 : (2 : ℕ) ^ (k + 1) = 2 * (2 ^ (k - (S + 1)) * (2 * 2 ^ S)) := by
    rw [← h2]
    ring
  rw [h1, h3, h2]
  exact iLoop_split (2 ^ S) (2 ^ (k - (S + 1))) hpos wL a m

lemma iLoop_congr_pow (S k : ℕ) (hS : S + 1 ≤ k) (wL : ℂ) (a b : ℕ → ℂ)
    (hab : ∀ t, t < 2 ^ k → a t = b t) (m : ℕ) (hm : m < 2 ^ k) :
    iLoop (2 ^ (S + 1)) (2 ^ k) wL a m = iLoop (2 ^ (S + 1)) (2 ^ k) wL b m := by
  have hpos : (0 : ℕ) < 2 ^ S := Nat.pos_pow_of_pos S (by norm_num)
  have h1 : (2 : ℕ) ^ (S + 1) = 2 * 2 ^ S := by ring
  have h2 : (2 : ℕ) ^ k = 2 ^ (k - (S + 1)) * (2 * 2 ^ S) := by
    rw [show 2 * 2 ^ S = 2 ^ (S + 1) from by ring, ← pow_add]
    congr 1
    omega
  rw [h1, h2]
  apply iLoop_congr (2 ^ S) (2 ^ (k - (S + 1))) hpos wL a b
  · intro t ht
    apply hab
    omega
  · omega

lemma stagesUpTo_split (k : ℕ) (a : ℕ → ℂ) :
    ∀ S, S ≤ k → ∀ m,
      stagesUpTo S (2 ^ (k + 1)) a m
        = if m < 2 ^ k then stagesUpTo S (2 ^ k) a m
          else if m < 2 ^ (k + 1) then
            stagesUpTo S (2 ^ k) (fun t => a (2 ^ k + t)) (m - 2 ^ k)
          else a m := by
  intro S
  induction S with
  | zero =>
      intro _ m
      show a m = _
      by_cases h1 : m < 2 ^ k
      · rw [if_pos h1]
        rfl
      · by_cases h2 : m < 2 ^ (k + 1)
        · rw [if_neg h1, if_pos h2]
          show a m = a (2 ^ k + (m - 2 ^ k))
          congr 1
          omega
        · rw [if_neg h1, if_neg h2]
  | succ S ih =>
      intro hS m
      have hSk : S ≤ k := by omega
      have hp : (2 : ℕ) ^ (k + 1) = 2 * 2 ^ k := by ring
      rw [stagesUpTo_succ, iLoop_split_pow S k hS _ _ m]
      by_cases h1 : m < 2 ^ k
      · rw [if_pos h1, if_pos h1, stagesUpTo_succ]
        apply iLoop_congr_pow S k hS _ _ _ ?_ m h1
        intro t ht
        have h := ih hSk t
        rw [if_pos ht] at h
        exact h
      · by_cases h2 : m < 2 ^ (k + 1)
        · rw [if_neg h1, if_pos h2, if_neg h1, if_pos h2, stagesUpTo_succ]
          apply iLoop_congr_pow S k hS _ _ _ ?_ (m - 2 ^ k) (by omega)
          intro t ht
          have h := ih hSk (2 ^ k + t)
          rw [if_neg (by omega), if_pos (by omega)] at h
          rw [show 2 ^ k + t - 2 ^ k = t from by omega] at h
          exact h
        · rw [if_neg h1, if_neg h2, if_neg h1, if_neg h2]
          exact stagesUpTo_ge S (2 ^ (k + 1)) a m (by omega)

lemma iLoop_last (k : ℕ) (wL : ℂ) (b : ℕ → ℂ) (m : ℕ) :
    iLoop (2 ^ (k + 1)) (2 ^ (k + 1)) wL b m
      = if m < 2 ^ (k + 1) then blockForm (2 ^ k) wL 0 b m else b m := by
  have hpos : (0 : ℕ) < 2 ^ k := Nat.pos_pow_of_pos k (by norm_num)
  have hchar := iLoop_char (2 ^ k) 1 hpos wL b
  rw [one_mul] at hchar
  have hlen : (2 : ℕ) ^ (k + 1) = 2 * 2 ^ k := by ring
  rw [hlen, hchar]
  dsimp only
  by_cases hm : m < 2 * 2 ^ k
  · rw [if_pos hm, if_pos hm, Nat.div_eq_of_lt hm, Nat.zero_mul]
  · rw [if_neg hm, if_neg hm]

/-! ### Twiddle-factor identities

The incremental rotation in the source accumulates (cos(-2pi/len), sin(-2pi/len))
multiplicatively, so after j steps the twiddle is exactly wTw(len)^j; in
exact real arithmetic these powers are the roots of unity exp(-2pi i j/len). -/

lemma wTw_eq_exp (len : ℕ) :
    wTw len = Complex.exp (((-2 * Real.pi / len : ℝ) : ℂ) * Complex.I) := by
  apply Complex.ext
  · rw [Complex.exp_ofReal_mul_I_re]
    rfl
  · rw [Complex.exp_ofReal_mul_I_im]
    rfl

lemma wTw_pow (len p : ℕ) :
    wTw len ^ p = Complex.exp (((-2 * Real.pi / len : ℝ) : ℂ) * Complex.I * p) := by
  rw [wTw_eq_exp, ← Complex.exp_nat_mul]
  congr 1
  ring

lemma wTw_sq (k : ℕ) : wTw (2 ^ (k + 1)) ^ 2 = wTw (2 ^ k) := by
  rw [wTw_pow, wTw_eq_exp]
  congr 1
  have h1 : ((2 : ℂ) ^ (k + 1)) ≠ 0 := pow_ne_zero _ two_ne_zero
  have h2 : ((2 : ℂ) ^ k) ≠ 0 := pow_ne_zero _ two_ne_zero
  push_cast
  field_simp
  ring

lemma wTw_pow_self (k : ℕ) : wTw (2 ^ k) ^ 2 ^ k = 1 := by
  rw [wTw_pow]
  have hne : ((2 : ℝ) ^ k) ≠ 0 := by positivity
  have harg : ((( -2 * Real.pi / ((2 ^ k : ℕ) : ℝ)) : ℝ) : ℂ) * Complex.I * ((2 ^ k : ℕ) : ℂ)
      = ((-1 : ℤ) : ℂ) * (2 * (Real.pi : ℂ) * Complex.I) := by
    push_cast
    field_simp
  rw [harg, Complex.exp_int_mul_two_pi_mul_I]

lemma wTw_half (k : ℕ) : wTw (2 ^ (k + 1)) ^ 2 ^ k = -1 := by
  rw [wTw_pow]
  have harg : ((( -2 * Real.pi / ((2 ^ (k + 1) : ℕ) : ℝ)) : ℝ) : ℂ) * Complex.I
        * ((2 ^ k : ℕ) : ℂ)
      = -((Real.pi : ℂ) * Complex.I) := by
    have h1 : ((2 : ℂ) ^ (k + 1)) ≠ 0 := pow_ne_zero _ two_ne_zero
    push_cast
    field_simp
    ring
  rw [harg, Complex.exp_neg, Complex.exp_pi_mul_I]
  norm_num

lemma sum_range_even_odd (n : ℕ) (f : ℕ → ℂ) :
    ∑ j ∈ Finset.range (2 * n), f j
      = (∑ q ∈ Finset.range n, f (2 * q)) + ∑ q ∈ Finset.range n, f (2 * q + 1) := by
  induction n with
  | zero => simp
  | succ n ih =>
      rw [show 2 * (n + 1) = 2 * n + 1 + 1 from by ring, Finset.sum_range_succ,
        Finset.sum_range_succ, Finset.sum_range_succ (fun q => f (2 * q)),
        Finset.sum_range_succ (fun q => f (2 * q + 1)), ih]
      ring

/-- After the bit-reversal permutation, the k butterfly stages turn the array
b into the transform K ↦ sum over j of b(bitRev j) · wTw(2^k)^(K·j). -/
lemma stages_dft (k : ℕ) : ∀ (a : ℕ → ℂ) (K : ℕ), K < 2 ^ k →
    stagesUpTo k (2 ^ k) a K
      = ∑ j ∈ Finset.range (2 ^ k), a (bitRev k j) * wTw (2 ^ k) ^ (K * j) := by
  induction k with
  | zero =>
      intro a K hK
      have h1 : (2 : ℕ) ^ 0 = 1 := by norm_num
      have hK0 : K = 0 := by omega
      subst hK0
      show a 0 = _
      rw [h1, Finset.sum_range_one]
      simp [bitRev]
  | succ k ih =>
      intro a K hK
      have hp : (2 : ℕ) ^ (k + 1) = 2 * 2 ^ k := by ring
      rw [stagesUpTo_succ, iLoop_last k (wTw (2 ^ (k + 1))) _ K, if_pos hK]
      set w := wTw (2 ^ (k + 1)) with hw
      set b := stagesUpTo k (2 ^ (k + 1)) a with hb
      have hbE : ∀ t, t < 2 ^ k → b t = stagesUpTo k (2 ^ k) a t := by
        intro t ht
        have h := stagesUpTo_split k a k le_rfl t
        rw [if_pos ht] at h
        exact h
      have hbO : ∀ t, t < 2 ^ k →
          b (2 ^ k + t) = stagesUpTo k (2 ^ k) (fun u => a (2 ^ k + u)) t := by
        intro t ht
        have h := stagesUpTo_split k a k le_rfl (2 ^ k + t)
        rw [if_neg (by omega), if_pos (by omega)] at h
        rw [show 2 ^ k + t - 2 ^ k = t from by omega] at h
        exact h
      have hsum : ∑ j ∈ Finset.range (2 ^ (k + 1)), a (bitRev (k + 1) j) * w ^ (K * j)
          = (∑ q ∈ Finset.range (2 ^ k), a (bitRev k q) * w ^ (K * (2 * q)))
            + ∑ q ∈ Finset.range (2 ^ k), a (2 ^ k + bitRev k q) * w ^ (K * (2 * q + 1)) := by
        rw [hp, sum_range_even_odd]
        congr 1
        · apply Finset.sum_congr rfl
          intro q _
          rw [bitRev_two_mul]
        · apply Finset.sum_congr rfl
          intro q _
          rw [bitRev_two_mul_add_one]
      rw [hsum]
      have heven : ∀ t q : ℕ, w ^ (t * (2 * q)) = wTw (2 ^ k) ^ (t * q) := by
        intro t q
        rw [show t * (2 * q) = 2 * (t * q) from by ring, pow_mul, hw, wTw_sq]
      have hodd : ∀ t q : ℕ, w ^ (t * (2 * q + 1)) = w ^ t * wTw (2 ^ k) ^ (t * q) := by
        intro t q
        rw [show t * (2 * q + 1) = t + 2 * (t * q) from by ring, pow_add, pow_mul, hw,
          wTw_sq]
      by_cases hK2 : K < 2 ^ k
      · rw [blockForm_lower (Nat.zero_le K) (by omega), Nat.sub_zero,
          show K + 2 ^ k = 2 ^ k + K from by omega,
          hbE K hK2, hbO K hK2, ih a K hK2, ih (fun u => a (2 ^ k + u)) K hK2]
        congr 1
        · apply Finset.sum_congr rfl
          intro q _
          rw [heven]
        · rw [Finset.mul_sum]
          apply Finset.sum_congr rfl
          intro q _
          rw [hodd]
          ring
      · obtain ⟨t, ht, hKt⟩ : ∃ t, t < 2 ^ k ∧ K = 2 ^ k + t :=
          ⟨K - 2 ^ k, by omega, by omega⟩
        subst hKt
        rw [blockForm_upper (by omega) (by omega), Nat.sub_zero,
          show 2 ^ k + t - 2 ^ k = t from by omega,
          hbE t ht, hbO t ht, ih a t ht, ih (fun u => a (2 ^ k + u)) t ht]
        have heven2 : ∀ q : ℕ, wTw (2 ^ k) ^ ((2 ^ k + t) * q) = wTw (2 ^ k) ^ (t * q) := by
          intro q
          rw [show (2 ^ k + t) * q = 2 ^ k * q + t * q from by ring, pow_add, pow_mul,
            wTw_pow_self, one_pow, one_mul]
        have hwK : w ^ (2 ^ k + t) = -(w ^ t) := by
          rw [pow_add, hw, wTw_half]
          ring
        rw [sub_eq_add_neg]
        congr 1
        · apply Finset.sum_congr rfl
          intro q _
          rw [heven (2 ^ k + t) q, heven2 q]
        · rw [Finset.mul_sum, ← Finset.sum_neg_distrib]
          apply Finset.sum_congr rfl
          intro q _
          rw [hodd (2 ^ k + t) q, hwK, heven2 q]
          ring

lemma fftInPlace_eq_sum (k : ℕ) (a : ℕ → ℂ) (K : ℕ) (hK : K < 2 ^ k) :
    fftInPlace k a K = ∑ j ∈ Finset.range (2 ^ k), a j * wTw (2 ^ k) ^ (K * j) := by
  unfold fftInPlace
  rw [stages_dft k _ K hK]
  apply Finset.sum_congr rfl
  intro j hj
  rw [bitReversePermutation_lt k a (bitRev k j) (bitRev_lt k j),
    bitRev_bitRev k j (Finset.mem_range.mp hj)]

/-- The standard unnormalized forward DFT, exactly as the claim states it:
output[K] = sum over j of x[j]·exp(-2·pi·i·K·j/N). -/
def dft (N : ℕ) (x : ℕ → ℂ) (K : ℕ) : ℂ :=
  ∑ j ∈ Finset.range N, x j * Complex.exp (-(2 * (Real.pi : ℂ) * Complex.I) * K * j / N)

lemma wTw_pow_eq_exp (N K j : ℕ) (hN : N ≠ 0) :
    wTw N ^ (K * j)
      = Complex.exp (-(2 * (Real.pi : ℂ) * Complex.I) * K * j / N) := by
  rw [wTw_pow]
  congr 1
  have hNc : ((N : ℂ)) ≠ 0 := Nat.cast_ne_zero.mpr hN
  push_cast
  ring

lemma fftInPlace_eq_dft (k : ℕ) (a : ℕ → ℂ) (K : ℕ) (hK : K < 2 ^ k) :
    fftInPlace k a K = dft (2 ^ k) a K := by
  rw [fftInPlace_eq_sum k a K hK]
  unfold dft
  apply Finset.sum_congr rfl
  intro j _
  rw [wTw_pow_eq_exp (2 ^ k) K j (by positivity)]

/-- The source's two real arrays, combined: fftInPlace on (re, im) returns
the pair of arrays holding the real and imaginary parts of the result. -/
def fftInPlaceRI (k : ℕ) (re im : ℕ → ℝ) : (ℕ → ℝ) × (ℕ → ℝ) :=
  ((fun m => (fftInPlace k (fun t => ⟨re t, im t⟩) m).re),
   (fun m => (fftInPlace k (fun t => ⟨re t, im t⟩) m).im))

/-! ## Mel filterbank (src/lib/melSpectrogram.ts lines 79-114)

Source:
  function hzToMel(hz) \x7b return 2595 * Math.log10(1 + hz / 700); \x7d
  function melToHz(mel) \x7b return 700 * (10 ** (mel / 2595) - 1); \x7d
  melPoints[i] = mMin + (i * (mMax - mMin)) / (N_MELS + 1);
  bin = hzPoints.map((hz) => Math.floor((N_FFT + 1) * hz / SAMPLE_RATE));
  for (m = 1; m <= N_MELS; m++) \x7b
    f = new Float32Array(nFftBins);
    left = bin[m-1]; center = bin[m]; right = bin[m+1];
    if (right <= left) \x7b filters.push(f); continue; \x7d
    for (k = left; k < center; k++)
      if (k >= 0 && k < nFftBins) f[k] = (k - left) / Math.max(1, center - left);
    for (k = center; k < right; k++)
      if (k >= 0 && k < nFftBins) f[k] = (right - k) / Math.max(1, right - center);
    filters.push(f);
  \x7d
with SAMPLE_RATE = 16000, N_FFT = 1024, N_MELS = 128, nFftBins = 513.
The (?? 0) fallbacks on bin[] reads are unreachable (indices 0..129 of a
length-130 array) and the bin array is modelled as the total function binPt. -/

def hzToMel (hz : ℝ) : ℝ := 2595 * Real.logb 10 (1 + hz / 700)

def melToHz (mel : ℝ) : ℝ := 700 * ((10 : ℝ) ^ (mel / 2595) - 1)

def melPoints (i : ℕ) : ℝ :=
  hzToMel 0 + (i * (hzToMel (16000 / 2) - hzToMel 0)) / (128 + 1)

def binPt (i : ℕ) : ℤ := ⌊(1024 + 1) * melToHz (melPoints i) / 16000⌋

/-- Guarded write: if (k >= 0 && k < nFftBins) f[k] = v; -/
def setF (f : List ℝ) (k : ℤ) (v : ℝ) : List ℝ :=
  if 0 ≤ k ∧ k < 513 then f.set k.toNat v else f

def melFilterRow (m : ℕ) : List ℝ :=
  if binPt (m + 1) ≤ binPt (m - 1) then List.replicate 513 0
  else
    (List.range (binPt (m + 1) - binPt m).toNat).foldl
      (fun f (s : ℕ) => setF f (binPt m + (s : ℤ))
        (((binPt (m + 1) - (binPt m + (s : ℤ)) : ℤ) : ℝ)
          / ((max 1 (binPt (m + 1) - binPt m) : ℤ) : ℝ)))
      ((List.range (binPt m - binPt (m - 1)).toNat).foldl
        (fun f (s : ℕ) => setF f (binPt (m - 1) + (s : ℤ))
          ((((binPt (m - 1) + (s : ℤ)) - binPt (m - 1) : ℤ) : ℝ)
            / ((max 1 (binPt m - binPt (m - 1)) : ℤ) : ℝ)))
        (List.replicate 513 0))

def getMelFilters : List (List ℝ) := (List.range' 1 128).map melFilterRow

def melFilterVal (m0 k : ℕ) : ℝ := (getMelFilters.getD m0 []).getD k 0

end

/-! ### List write lemmas shared by the filterbank and spectrogram buffers -/

lemma getD_set {α : Type _} [Inhabited α] (l : List α) (n m : ℕ) (x : α) :
    (l.set n x).getD m default = if n = m ∧ n < l.length then x else l.getD m default := by
  rw [List.getD_eq_getElem?_getD, List.getElem?_set, List.getD_eq_getElem?_getD]
  by_cases h1 : n = m
  · subst h1
    by_cases h2 : n < l.length
    · rw [if_pos rfl, if_pos h2, if_pos ⟨rfl, h2⟩]
      rfl
    · rw [if_pos rfl, if_neg h2, if_neg (by omega), List.getElem?_eq_none (by omega)]
  · rw [if_neg h1, if_neg (by tauto)]

lemma getD_zero_of_all_zero (l : List ℝ) (h : ∀ x ∈ l, x = 0) (i : ℕ) :
    l.getD i 0 = 0 := by
  by_cases hi : i < l.length
  · rw [List.getD_eq_getElem l 0 hi]
    exact h _ (List.getElem_mem hi)
  · exact List.getD_eq_default l 0 (by omega)

lemma getD_replicate_zero (n i : ℕ) : (List.replicate n (0 : ℝ)).getD i 0 = 0 :=
  getD_zero_of_all_zero _ (fun x hx => (List.eq_of_mem_replicate hx)) i

section

lemma setF_length (f : List ℝ) (k : ℤ) (v : ℝ) : (setF f k v).length = f.length := by
  unfold setF
  split
  · exact List.length_set f _ _
  · rfl

lemma setF_getD (f : List ℝ) (hlen : f.length = 513) (k : ℤ) (v : ℝ) (j : ℕ) :
    (setF f k v).getD j 0 = if (j : ℤ) = k ∧ j < 513 then v else f.getD j 0 := by
  unfold setF
  by_cases hg : 0 ≤ k ∧ k < 513
  · rw [if_pos hg]
    have h0 : (0 : ℝ) = default := rfl
    rw [h0, getD_set, ← h0]
    have hiff : (k.toNat = j ∧ k.toNat < f.length) ↔ ((j : ℤ) = k ∧ j < 513) := by
      rw [hlen]
      omega
    rw [if_congr hiff rfl rfl]
  · rw [if_neg hg, if_neg (by omega)]

lemma foldSetF_length (base : ℤ) (cnt : ℕ) (v : ℤ → ℝ) (f0 : List ℝ) :
    ((List.range cnt).foldl (fun f (s : ℕ) => setF f (base + (s : ℤ)) (v (base + (s : ℤ)))) f0).length
      = f0.length := by
  induction cnt with
  | zero => rfl
  | succ cnt ih =>
      rw [List.range_succ, List.foldl_append, List.foldl_cons, List.foldl_nil,
        setF_length, ih]

lemma foldSetF_getD (base : ℤ) (cnt : ℕ) (v : ℤ → ℝ) (f0 : List ℝ)
    (h0 : f0.length = 513) (j : ℕ) :
    ((List.range cnt).foldl
        (fun f (s : ℕ) => setF f (base + (s : ℤ)) (v (base + (s : ℤ)))) f0).getD j 0
      = if base ≤ (j : ℤ) ∧ (j : ℤ) < base + cnt ∧ j < 513 then v j
        else f0.getD j 0 := by
  induction cnt with
  | zero =>
      rw [List.range_zero, List.foldl_nil, if_neg (by omega)]
  | succ cnt ih =>
      rw [List.range_succ, List.foldl_append, List.foldl_cons, List.foldl_nil,
        setF_getD _ (by rw [foldSetF_length]; exact h0), ih]
      by_cases he : (j : ℤ) = base + cnt ∧ j < 513
      · rw [if_pos he, if_pos (by omega), ← he.1]
      · rw [if_neg he]
        by_cases hc : base ≤ (j : ℤ) ∧ (j : ℤ) < base + cnt ∧ j < 513
        · rw [if_pos hc, if_pos (by omega)]
        · rw [if_neg hc, if_neg (by omega)]

end

/-! ### Mel bin monotonicity -/

lemma hzToMel_zero : hzToMel 0 = 0 := by
  unfold hzToMel
  norm_num

lemma hzToMel_nyquist_nonneg : 0 ≤ hzToMel (16000 / 2) := by
  unfold hzToMel
  have h : (0 : ℝ) ≤ Real.logb 10 (1 + 16000 / 2 / 700) :=
    Real.logb_nonneg (by norm_num) (by norm_num)
  positivity

lemma melPoints_nonneg (i : ℕ) : 0 ≤ melPoints i := by
  unfold melPoints
  rw [hzToMel_zero]
  have h := hzToMel_nyquist_nonneg
  have hi : (0 : ℝ) ≤ (i : ℝ) := Nat.cast_nonneg i
  have hprod : (0 : ℝ) ≤ (i : ℝ) * (hzToMel (16000 / 2) - 0) := mul_nonneg hi (by linarith)
  have hdiv : (0 : ℝ) ≤ (i : ℝ) * (hzToMel (16000 / 2) - 0) / (128 + 1) := by positivity
  linarith

lemma melPoints_mono {i j : ℕ} (hij : i ≤ j) : melPoints i ≤ melPoints j := by
  unfold melPoints
  rw [hzToMel_zero]
  have h := hzToMel_nyquist_nonneg
  have hij' : (i : ℝ) ≤ (j : ℝ) := Nat.cast_le.mpr hij
  have hnum : (i : ℝ) * (hzToMel (16000 / 2) - 0) ≤ (j : ℝ) * (hzToMel (16000 / 2) - 0) := by
    apply mul_le_mul_of_nonneg_right hij'
    linarith
  have hden : (0 : ℝ) < 128 + 1 := by norm_num
  have hdiv := (div_le_div_right hden).mpr hnum
  linarith

lemma melToHz_nonneg {x : ℝ} (hx : 0 ≤ x) : 0 ≤ melToHz x := by
  unfold melToHz
  have h1 : (1 : ℝ) ≤ (10 : ℝ) ^ (x / 2595) := by
    have h0 : (10 : ℝ) ^ (0 : ℝ) ≤ (10 : ℝ) ^ (x / 2595) := by
      rw [Real.rpow_le_rpow_left_iff (by norm_num)]
      positivity
    rwa [Real.rpow_zero] at h0
  linarith

lemma melToHz_mono {x y : ℝ} (hxy : x ≤ y) : melToHz x ≤ melToHz y := by
  unfold melToHz
  have h : (10 : ℝ) ^ (x / 2595) ≤ (10 : ℝ) ^ (y / 2595) := by
    rw [Real.rpow_le_rpow_left_iff (by norm_num)]
    linarith
  linarith

lemma binPt_nonneg (i : ℕ) : 0 ≤ binPt i := by
  unfold binPt
  apply Int.floor_nonneg.mpr
  have h := melToHz_nonneg (melPoints_nonneg i)
  positivity

lemma binPt_mono {i j : ℕ} (hij : i ≤ j) : binPt i ≤ binPt j := by
  unfold binPt
  apply Int.floor_le_floor
  have h := melToHz_mono (melPoints_mono hij)
  have hmul : (1024 + 1 : ℝ) * melToHz (melPoints i)
      ≤ (1024 + 1) * melToHz (melPoints j) :=
    mul_le_mul_of_nonneg_left h (by norm_num)
  exact (div_le_div_right (by norm_num : (0 : ℝ) < 16000)).mpr hmul

lemma getMelFilters_getD (m0 : ℕ) (hm : m0 < 128) :
    getMelFilters.getD m0 [] = melFilterRow (1 + m0) := by
  unfold getMelFilters
  rw [List.getD_eq_getElem?_getD, List.getElem?_map, List.getElem?_range' 1 1 hm,
    Nat.one_mul]
  rfl

lemma melFilterVal_eq (m0 : ℕ) (hm : m0 < 128) (k : ℕ) :
    melFilterVal m0 k
      = if binPt (m0 + 2) ≤ binPt m0 then 0
        else if binPt (m0 + 1) ≤ (k : ℤ)
            ∧ (k : ℤ) < binPt (m0 + 1) + (((binPt (m0 + 2) - binPt (m0 + 1)).toNat : ℕ) : ℤ)
            ∧ k < 513 then
          ((binPt (m0 + 2) - (k : ℤ) : ℤ) : ℝ)
            / ((max 1 (binPt (m0 + 2) - binPt (m0 + 1)) : ℤ) : ℝ)
        else if binPt m0 ≤ (k : ℤ)
            ∧ (k : ℤ) < binPt m0 + (((binPt (m0 + 1) - binPt m0).toNat : ℕ) : ℤ)
            ∧ k < 513 then
          (((k : ℤ) - binPt m0 : ℤ) : ℝ) / ((max 1 (binPt (m0 + 1) - binPt m0) : ℤ) : ℝ)
        else 0 := by
  unfold melFilterVal
  rw [getMelFilters_getD m0 hm]
  unfold melFilterRow
  rw [show 1 + m0 + 1 = m0 + 2 from by omega, show 1 + m0 - 1 = m0 from by omega,
    show 1 + m0 = m0 + 1 from by omega]
  by_cases hdeg : binPt (m0 + 2) ≤ binPt m0
  · rw [if_pos hdeg, if_pos hdeg]
    exact getD_replicate_zero 513 k
  · rw [if_neg hdeg, if_neg hdeg]
    have hlen1 : ((List.range (binPt (m0 + 1) - binPt m0).toNat).foldl
        (fun f (s : ℕ) => setF f (binPt m0 + (s : ℤ))
          ((((binPt m0 + (s : ℤ)) - binPt m0 : ℤ) : ℝ)
            / ((max 1 (binPt (m0 + 1) - binPt m0) : ℤ) : ℝ)))
        (List.replicate 513 0)).length = 513 := by
      rw [foldSetF_length (binPt m0) _
        (fun kk => ((kk - binPt m0 : ℤ) : ℝ) / ((max 1 (binPt (m0 + 1) - binPt m0) : ℤ) : ℝ)),
        List.length_replicate]
    rw [foldSetF_getD (binPt (m0 + 1)) _
      (fun kk => ((binPt (m0 + 2) - kk : ℤ) : ℝ)
        / ((max 1 (binPt (m0 + 2) - binPt (m0 + 1)) : ℤ) : ℝ)) _ hlen1 k]
    rw [foldSetF_getD (binPt m0) _
      (fun kk => ((kk - binPt m0 : ℤ) : ℝ) / ((max 1 (binPt (m0 + 1) - binPt m0) : ℤ) : ℝ))
      _ (List.length_replicate 513 0) k]
    rw [getD_replicate_zero 513 k]

/-- C7: every one of the 128 triangular mel filters is non-negative at every
FFT bin, vanishes at every bin outside [bin(m-1), bin(m+1)], and in the
degenerate case right <= left the filter is entirely zero (stated as the
disjunction: either the band is non-degenerate or the filter value is 0). -/
theorem melFilters_nonneg_support (m0 : Fin 128) (k : ℕ) :
    0 ≤ melFilterVal m0.val k ∧
    (melFilterVal m0.val k = 0
      ∨ (binPt m0.val ≤ (k : ℤ) ∧ (k : ℤ) ≤ binPt (m0.val + 2))) ∧
    (binPt m0.val < binPt (m0.val + 2) ∨ melFilterVal m0.val k = 0) := by
  have hval := melFilterVal_eq m0.val m0.isLt k
  have hmono1 : binPt m0.val ≤ binPt (m0.val + 1) := binPt_mono (by omega)
  have hmono2 : binPt (m0.val + 1) ≤ binPt (m0.val + 2) := binPt_mono (by omega)
  by_cases hdeg : binPt (m0.val + 2) ≤ binPt m0.val
  · rw [hval, if_pos hdeg]
    exact ⟨le_refl 0, Or.inl rfl, Or.inr rfl⟩
  · rw [hval, if_neg hdeg]
    have htn1 : (((binPt (m0.val + 2) - binPt (m0.val + 1)).toNat : ℕ) : ℤ)
        = binPt (m0.val + 2) - binPt (m0.val + 1) := Int.toNat_of_nonneg (by omega)
    have htn2 : (((binPt (m0.val + 1) - binPt m0.val).toNat : ℕ) : ℤ)
        = binPt (m0.val + 1) - binPt m0.val := Int.toNat_of_nonneg (by omega)
    rw [htn1, htn2]
    by_cases hc1 : binPt (m0.val + 1) ≤ (k : ℤ)
        ∧ (k : ℤ) < binPt (m0.val + 1) + (binPt (m0.val + 2) - binPt (m0.val + 1))
        ∧ k < 513
    · rw [if_pos hc1]
      have hnum : (0 : ℤ) ≤ binPt (m0.val + 2) - (k : ℤ) := by omega
      have hden : (0 : ℤ) ≤ max 1 (binPt (m0.val + 2) - binPt (m0.val + 1)) := by omega
      refine ⟨div_nonneg ?_ ?_, Or.inr ⟨by omega, by omega⟩, Or.inl (by omega)⟩
      · exact_mod_cast hnum
      · exact_mod_cast hden
    · rw [if_neg hc1]
      by_cases hc2 : binPt m0.val ≤ (k : ℤ)
          ∧ (k : ℤ) < binPt m0.val + (binPt (m0.val + 1) - binPt m0.val)
          ∧ k < 513
      · rw [if_pos hc2]
        have hnum : (0 : ℤ) ≤ (k : ℤ) - binPt m0.val := by omega
        have hden : (0 : ℤ) ≤ max 1 (binPt (m0.val + 1) - binPt m0.val) := by omega
        refine ⟨div_nonneg ?_ ?_, Or.inr ⟨by omega, by omega⟩, Or.inl (by omega)⟩
        · exact_mod_cast hnum
        · exact_mod_cast hden
      · rw [if_neg hc2]
        exact ⟨le_refl 0, Or.inl rfl, Or.inl (by omega)⟩

/-! ## Claim theorem for the FFT -/

/-- C1: For every pair of equal-length real/imaginary arrays whose common
length is a power of two 2^k, fftInPlace (which performs the bit-reversal
permutation first) overwrites both arrays with the standard unnormalized
forward DFT of the complex input: output[K] = sum over n of
x[n]·exp(-2·pi·i·K·n/N), with no normalization factor. -/
theorem fftInPlace_computes_dft (k : ℕ) (re im : ℕ → ℝ) (K : Fin (2 ^ k)) :
    (fftInPlaceRI k re im).1 K.val
        = (dft (2 ^ k) (fun t => ⟨re t, im t⟩) K.val).re ∧
    (fftInPlaceRI k re im).2 K.val
        = (dft (2 ^ k) (fun t => ⟨re t, im t⟩) K.val).im := by
  have h : fftInPlace k (fun t => (⟨re t, im t⟩ : ℂ)) K.val
      = dft (2 ^ k) (fun t => ⟨re t, im t⟩) K.val :=
    fftInPlace_eq_dft k _ K.val K.isLt
  exact ⟨congrArg Complex.re h, congrArg Complex.im h⟩

/-! ## Mel spectrogram computation (src/lib/melSpectrogram.ts lines 116-158)

Source:
  const pad = N_FFT / 2;
  const padded = new Float32Array(samples16k.length + pad * 2);
  padded.set(samples16k, pad);
  for (let t = 0; t < N_FRAMES; t++) \x7b
    const start = t * HOP_LENGTH;
    for (let i = 0; i < N_FFT; i++) frame[i] = (padded[start + i] ?? 0) * window[i]!;
    re.set(frame); im.fill(0); fftInPlace(re, im);
    for (let k = 0; k < nFftBins; k++) power[k] = re[k]*re[k] + im[k]*im[k];
    for (let m = 0; m < N_MELS; m++) \x7b
      let sum = 0;
      for (let k = 0; k < nFftBins; k++) sum += power[k] * filt[k];
      out[m * N_FRAMES + t] = sum;
    \x7d
  \x7d
The per-frame scratch buffers (frame, re, im, power) are fully overwritten
each iteration, so each frame is modelled as a fresh functional computation. -/

noncomputable section

/-- w[i] = 0.5 - 0.5*cos(2*pi*i/(n-1)) -/
def hannWindow (n : ℕ) : ℕ → ℝ :=
  fun i => 0.5 - 0.5 * Real.cos (2 * Real.pi * i / ((n - 1 : ℕ) : ℝ))

def paddedOf (samples : List ℝ) : List ℝ :=
  List.replicate 512 0 ++ samples ++ List.replicate 512 0

def frameOf (samples : List ℝ) (t i : ℕ) : ℝ :=
  (paddedOf samples).getD (t * 512 + i) 0 * hannWindow 1024 i

def fftFrame (samples : List ℝ) (t : ℕ) : ℕ → ℂ :=
  fftInPlace 10 (fun i => ⟨frameOf samples t i, 0⟩)

def powerOf (samples : List ℝ) (t k : ℕ) : ℝ :=
  (fftFrame samples t k).re * (fftFrame samples t k).re
    + (fftFrame samples t k).im * (fftFrame samples t k).im

/-- The value written to out[m * 32 + t]: the mel-filter-weighted power. -/
def melValue (samples : List ℝ) (m t : ℕ) : ℝ :=
  ∑ k ∈ Finset.range 513, powerOf samples t k * melFilterVal m k

def melSpectrogram128x32From16k (samples : List ℝ) : List ℝ :=
  (List.range 32).foldl
    (fun out t =>
      (List.range 128).foldl
        (fun out m => out.set (m * 32 + t) (melValue samples m t)) out)
    (List.replicate (128 * 32) 0)

lemma melInner_length (samples : List ℝ) (t : ℕ) (out : List ℝ) :
    ∀ M, ((List.range M).foldl
        (fun o m => o.set (m * 32 + t) (melValue samples m t)) out).length
      = out.length := by
  intro M
  induction M with
  | zero => rfl
  | succ M ih =>
      rw [List.range_succ, List.foldl_append, List.foldl_cons, List.foldl_nil,
        List.length_set, ih]

lemma melInner_getD (samples : List ℝ) (t : ℕ) (out : List ℝ)
    (hlen : out.length = 128 * 32) (ht : t < 32) :
    ∀ M, M ≤ 128 → ∀ m t', m < 128 → t' < 32 →
      ((List.range M).foldl
          (fun o m' => o.set (m' * 32 + t) (melValue samples m' t)) out).getD
          (m * 32 + t') 0
        = if t' = t ∧ m < M then melValue samples m t
          else out.getD (m * 32 + t') 0 := by
  intro M
  induction M with
  | zero =>
      intro _ m t' _ _
      rw [List.range_zero, List.foldl_nil, if_neg (by omega)]
  | succ M ih =>
      intro hM m t' hm ht'
      rw [List.range_succ, List.foldl_append, List.foldl_cons, List.foldl_nil]
      have h0 : (0 : ℝ) = default := rfl
      rw [h0, getD_set, ← h0]
      rw [melInner_length, hlen]
      by_cases he : M * 32 + t = m * 32 + t'
      · have hMm : M = m ∧ t = t' := by omega
        rw [if_pos ⟨he, by omega⟩, if_pos (by omega)]
        rw [hMm.1]
      · rw [if_neg (by omega), ih (by omega) m t' hm ht']
        by_cases hc : t' = t ∧ m < M
        · rw [if_pos hc, if_pos (by omega)]
        · rw [if_neg hc, if_neg (by omega)]

lemma melOuter_length (samples : List ℝ) :
    ∀ T, ((List.range T).foldl
        (fun out t => (List.range 128).foldl
          (fun o m => o.set (m * 32 + t) (melValue samples m t)) out)
        (List.replicate (128 * 32) 0)).length
      = 128 * 32 := by
  intro T
  induction T with
  | zero => rw [List.range_zero, List.foldl_nil, List.length_replicate]
  | succ T ih =>
      rw [List.range_succ (n := T), List.foldl_append, List.foldl_cons, List.foldl_nil,
        melInner_length, ih]

lemma melOuter_getD (samples : List ℝ) :
    ∀ T, T ≤ 32 → ∀ m t', m < 128 → t' < 32 →
      ((List.range T).foldl
          (fun out t => (List.range 128).foldl
            (fun o m' => o.set (m' * 32 + t) (melValue samples m' t)) out)
          (List.replicate (128 * 32) 0)).getD (m * 32 + t') 0
        = if t' < T then melValue samples m t' else 0 := by
  intro T
  induction T with
  | zero =>
      intro _ m t' _ _
      rw [List.range_zero, List.foldl_nil, if_neg (by omega), getD_replicate_zero]
  | succ T ih =>
      intro hT m t' hm ht'
      rw [List.range_succ (n := T), List.foldl_append, List.foldl_cons, List.foldl_nil]
      rw [melInner_getD samples T _ (melOuter_length samples T) (by omega) 128 le_rfl
        m t' hm ht']
      rw [ih (by omega) m t' hm ht']
      by_cases he : t' = T
      · subst he
        rw [if_pos ⟨rfl, hm⟩, if_pos (by omega)]
      · rw [if_neg (by tauto)]
        by_cases hc : t' < T
        · rw [if_pos hc, if_pos (by omega)]
        · rw [if_neg hc, if_neg (by omega)]

lemma melValue_zero_of_silence (samples : List ℝ) (h : ∀ x ∈ samples, x = 0)
    (m t : ℕ) : melValue samples m t = 0 := by
  have hframe : ∀ i, frameOf samples t i = 0 := by
    intro i
    unfold frameOf
    rw [getD_zero_of_all_zero (paddedOf samples) ?_ _, zero_mul]
    intro x hx
    unfold paddedOf at hx
    rcases List.mem_append.mp hx with hx | hx
    · rcases List.mem_append.mp hx with hx | hx
      · exact List.eq_of_mem_replicate hx
      · exact h x hx
    · exact List.eq_of_mem_replicate hx
  have hpow : ∀ K, K < 513 → powerOf samples t K = 0 := by
    intro K hK
    unfold powerOf fftFrame
    have harr : (fun i => (⟨frameOf samples t i, 0⟩ : ℂ)) = fun _ => (0 : ℂ) := by
      funext i
      rw [hframe i]
      apply Complex.ext <;> simp
    rw [harr]
    have h10 : (2 : ℕ) ^ 10 = 1024 := by norm_num
    have hdft := fftInPlace_eq_dft 10 (fun _ => (0 : ℂ)) K (by omega)
    rw [hdft]
    unfold dft
    rw [Finset.sum_eq_zero (fun j _ => zero_mul _)]
    simp
  unfold melValue
  apply Finset.sum_eq_zero
  intro K hK
  rw [hpow K (Finset.mem_range.mp hK), zero_mul]

end

/-! ## Claim theorems for the mel spectrogram -/

/-- C3: for every input sample list, of any length including empty, the mel
spectrogram is a flat buffer of exactly 128·32 = 4096 values, filled in
mel-major order: the value for mel band m and frame t is stored at index
m·32 + t. -/
theorem melSpectrogram_shape_and_layout (samples : List ℝ) :
    (melSpectrogram128x32From16k samples).length = 128 * 32 ∧
    ∀ (m : Fin 128) (t : Fin 32),
      (melSpectrogram128x32From16k samples).getD (m.val * 32 + t.val) 0
        = melValue samples m.val t.val := by
  constructor
  · exact melOuter_length samples 32
  · intro m t
    unfold melSpectrogram128x32From16k
    rw [melOuter_getD samples 32 le_rfl m.val t.val m.isLt t.isLt, if_pos t.isLt]

/-- C9: an all-zero input of any length produces an entirely zero mel
spectrogram (silence in, silence spectrogram out). -/
theorem silence_in_silence_out (samples : List ℝ) (h : ∀ x ∈ samples, x = 0) :
    melSpectrogram128x32From16k samples = List.replicate (128 * 32) 0 := by
  apply List.ext_getElem
  · unfold melSpectrogram128x32From16k
    rw [melOuter_length samples 32, List.length_replicate]
  · intro i h1 h2
    have hi : i < 128 * 32 := by
      rw [List.length_replicate] at h2
      exact h2
    have hm : i / 32 < 128 := by omega
    have ht : i % 32 < 32 := by omega
    have hidx : (i / 32) * 32 + i % 32 = i := by omega
    rw [← List.getD_eq_getElem _ 0 h1, ← List.getD_eq_getElem _ 0 h2,
      getD_replicate_zero, ← hidx]
    show (melSpectrogram128x32From16k samples).getD ((i / 32) * 32 + i % 32) 0 = 0
    unfold melSpectrogram128x32From16k
    rw [melOuter_getD samples 32 le_rfl (i / 32) (i % 32) hm ht, if_pos ht,
      melValue_zero_of_silence samples h]

/-- Witness for C9 at the concrete empty sample list. -/
theorem silence_in_silence_out_witness :
    (∀ x ∈ ([] : List ℝ), x = 0) ∧
    melSpectrogram128x32From16k [] = List.replicate (128 * 32) 0 :=
  ⟨fun x hx => absurd hx (List.not_mem_nil x),
   silence_in_silence_out [] (fun x hx => absurd hx (List.not_mem_nil x))⟩

end DigitDemo
